import Mathlib

/-!
Tempo map acceleration structure (`src/core/core_beat.cpp`).

A shallow embedding of `TempoMapAccelerationStructure`: the table build (`Rebuild`) and the
queries `ConvertBeatToTimeUsingLookupTableIndexing`,
`ConvertTimeToBeatUsingLookupTableBinarySearch` and
`ConvertBeatAndTimeToHBScrollBeatTickUsingLookupTableIndexing`.

Conventions of the embedding:

* `f64` and `Time` (a wrapper around `f64` seconds) are exact rationals `ℚ`.
* `i32` values are integers `ℤ`, assumed to stay inside the 32-bit range (signed overflow is
  undefined in C++); `size_t` values are naturals `ℕ`; the two places where the source can wrap
  a `size_t` (`i32 → size_t` conversion of a negative tick, `timesCount - 1` at zero) wrap
  explicitly.
* `std::vector` is `List`; every element access is checked and an access outside the vector
  makes the operation return `none`.
* Where a query input can leave the 32-bit range the `i32` operations are made explicit in a
  second embedding of the query, named with the suffix `I32`: a `static_cast<i32>` whose value
  does not fit has no defined result (`none`), and the `i32` sum `totalBeatTicks + 1` wraps
  around `2 ^ 32` as the machine computes it.
-/

namespace PeepoDrumKit

/-- A tempo change: the tick position `Beat.Ticks` (an `i32`) and the tempo's `BPM`. -/
structure TempoChange where
  /-- Tick position of the change (`tempoChange.Beat.Ticks`). -/
  Beat : ℤ
  /-- Beats per minute (`tempoChange.Tempo.BPM`). -/
  Tempo : ℚ
  deriving DecidableEq

/-- The constants and the helper that `core_beat.cpp` takes from `core_beat.h`, which is not part
of the sources at hand: `Beat::TicksPerBeat`, `FallbackTempo` and `SafetyCheckTempo`. They are
parameters of the embedding. -/
structure Env where
  /-- The constant `Beat::TicksPerBeat`. -/
  TicksPerBeat : ℤ
  /-- The BPM of the constant `FallbackTempo`. -/
  FallbackTempo : ℚ
  /-- The tempo sanitizer `SafetyCheckTempo`, on BPM values. -/
  SafetyCheckTempo : ℚ → ℚ

/-- A tempo value the sanitizer leaves alone and that is not zero: what the specification calls a
pre-validated, finite non-zero BPM. -/
def ValidTempo (env : Env) (bpm : ℚ) : Prop :=
  bpm ≠ 0 ∧ env.SafetyCheckTempo bpm = bpm

instance (env : Env) (bpm : ℚ) : Decidable (ValidTempo env bpm) := by
  unfold ValidTempo; infer_instance

/-- Modelled from the spec: the helper `Sign` is declared outside the sources at hand; the
specification (section 4.1, step 3) uses it as the sign of `60 / BPM`, so it is `-1` on negative
values, `1` on positive values and `0` at zero. -/
def Sign (x : ℚ) : ℚ :=
  if x < 0 then -1 else if 0 < x then 1 else 0

/-- Conversion `i32 → size_t`: non-negative values are kept, negative values wrap around
`2 ^ 64`. -/
def toSizeT (i : ℤ) : ℕ :=
  if 0 ≤ i then i.toNat else (2 ^ 64 + i).toNat

/-- The `size_t` expression `n - 1`, which wraps at zero. -/
def sizeTPred (n : ℕ) : ℕ :=
  if n = 0 then 2 ^ 64 - 1 else n - 1

/-- Conversion `static_cast<i32>(f64)`: the fractional part is discarded (rounding toward
zero). The value is taken to fit in an `i32`. -/
def toI32 (x : ℚ) : ℤ :=
  if 0 ≤ x then ⌊x⌋ else ⌈x⌉

/-- The member function `std::vector::resize`: keeps the first `n` elements and pads with
value-initialised (zero) elements. -/
def resize (xs : List ℚ) (n : ℕ) : List ℚ :=
  xs.take n ++ List.replicate (n - xs.length) 0

/-- The state of a `TempoMapAccelerationStructure`. -/
structure TempoMapAccelerationStructure where
  /-- Time in seconds at each tick. -/
  BeatTickToTimes : List ℚ
  /-- HBScroll beat tick at each tick. -/
  BeatTickToHBScrollBeatTicks : List ℚ
  /-- BPM of the first tempo change of the last build. -/
  FirstTempoBPM : ℚ
  /-- BPM of the last tempo change of the last build. -/
  LastTempoBPM : ℚ
  /-- Scratch buffer of `Rebuild`. -/
  TempoBuffer : List TempoChange

/-- The member function `GetLastCalculatedTime`. -/
def GetLastCalculatedTime (s : TempoMapAccelerationStructure) : ℚ :=
  match s.BeatTickToTimes.getLast? with
  | none => 0
  | some t => t

/-- The member function `GetLastCalculatedHBScrollBeatTick`. -/
def GetLastCalculatedHBScrollBeatTick (s : TempoMapAccelerationStructure) : ℚ :=
  match s.BeatTickToHBScrollBeatTicks.getLast? with
  | none => 0
  | some t => t

/-- The inner loop of `Rebuild`,
`for (size_t i = 0, t = tempoChange.Beat.Ticks; t < timesCount; i++, t++)`, with `n` the number
of iterations left (`timesCount - t`). A write outside a table gives `none`. -/
def fillTicks (tickDuration tickSign lastEndTime : ℚ) (lastEndHBScrollBeatTick : ℤ) :
    ℕ → ℕ → ℕ → List ℚ → List ℚ → Option (List ℚ × List ℚ)
  | 0, _, _, times, hbs => some (times, hbs)
  | n + 1, i, t, times, hbs =>
    if t < times.length ∧ t < hbs.length then
      fillTicks tickDuration tickSign lastEndTime lastEndHBScrollBeatTick n (i + 1) (t + 1)
        (times.set t (tickDuration * i + lastEndTime))
        (hbs.set t (tickSign * i + lastEndHBScrollBeatTick))
    else none

/-- The outer loop of `Rebuild` over the tempo changes from `tempoChangeIndex` on: the first
argument is the part of `tempoChanges` not yet visited, so its head is
`tempoChanges[tempoChangeIndex]` and the head of its tail is
`tempoChanges[tempoChangeIndex + 1]`. -/
def rebuildLoop (env : Env) (tempoCount : ℕ) :
    List TempoChange → ℕ → ℚ → ℤ → TempoMapAccelerationStructure →
      Option TempoMapAccelerationStructure
  | [], _, _, _, s => some s
  | tempoChange :: rest, tempoChangeIndex, lastEndTime, lastEndHBScrollBeatTick, s =>
    let bpm := env.SafetyCheckTempo tempoChange.Tempo
    let beatDuration : ℚ := 60 / bpm
    let tickDuration : ℚ := |beatDuration / env.TicksPerBeat|
    let tickSign : ℚ := Sign beatDuration
    let isSingleOrLastTempo : Bool :=
      decide (tempoCount = 1) || decide (tempoChangeIndex = tempoCount - 1)
    let timesCount? : Option ℕ :=
      if isSingleOrLastTempo then some s.BeatTickToTimes.length
      else rest.head?.map fun next => toSizeT next.Beat
    match timesCount? with
    | none => none
    | some timesCount =>
      match fillTicks tickDuration tickSign lastEndTime lastEndHBScrollBeatTick
          (timesCount - toSizeT tempoChange.Beat) 0 (toSizeT tempoChange.Beat)
          s.BeatTickToTimes s.BeatTickToHBScrollBeatTicks with
      | none => none
      | some (times, hbs) =>
        let s1 : TempoMapAccelerationStructure :=
          { s with
            BeatTickToTimes := times
            BeatTickToHBScrollBeatTicks := hbs
            FirstTempoBPM := if tempoChangeIndex = 0 then bpm else s.FirstTempoBPM
            LastTempoBPM := bpm }
        if 1 < tempoCount then
          match times[sizeTPred timesCount]?, hbs[sizeTPred timesCount]? with
          | some lastTime, some lastHB =>
            rebuildLoop env tempoCount rest (tempoChangeIndex + 1)
              (lastTime + tickDuration) (toI32 (lastHB + tickSign)) s1
          | _, _ => none
        else
          rebuildLoop env tempoCount rest (tempoChangeIndex + 1)
            lastEndTime lastEndHBScrollBeatTick s1

/-- The tempo changes `Rebuild` works on: the input itself, or, when the input is empty or
starts after tick zero, the copy in `TempoBuffer` with `TempoChange(Beat::Zero(), FallbackTempo)`
in front. -/
def adjustedTempoChanges (env : Env) (inTempoChanges : List TempoChange) : List TempoChange :=
  match inTempoChanges with
  | [] => [⟨0, env.FallbackTempo⟩]
  | first :: _ =>
    if first.Beat > 0 then ⟨0, env.FallbackTempo⟩ :: inTempoChanges else inTempoChanges

/-- The number of table entries, `nTickValues` in `Rebuild`. -/
def nTickValues (tempoChanges : List TempoChange) : ℕ :=
  match tempoChanges.getLast? with
  | some lastChange => toSizeT (lastChange.Beat + 1)
  | none => 0

/-- The member function `Rebuild`. -/
def Rebuild (env : Env) (s : TempoMapAccelerationStructure) (inTempoChanges : List TempoChange) :
    Option TempoMapAccelerationStructure :=
  let tempoChanges := adjustedTempoChanges env inTempoChanges
  let tempoCount := tempoChanges.length
  let n := nTickValues tempoChanges
  let s0 : TempoMapAccelerationStructure :=
    { s with
      BeatTickToTimes := resize s.BeatTickToTimes n
      BeatTickToHBScrollBeatTicks := resize s.BeatTickToHBScrollBeatTicks n }
  (rebuildLoop env tempoCount tempoChanges 0 0 0 s0).map fun s1 => { s1 with TempoBuffer := [] }

/-- The member function `ConvertBeatToTimeUsingLookupTableIndexing`; `beat` is `beat.Ticks`. -/
def ConvertBeatToTimeUsingLookupTableIndexing (env : Env) (s : TempoMapAccelerationStructure)
    (beat : ℤ) : Option ℚ :=
  let beatTickToTimesCount : ℤ := s.BeatTickToTimes.length
  let totalBeatTicks := beat
  if totalBeatTicks < 0 then
    let firstTickDuration : ℚ := (60 / |s.FirstTempoBPM|) / env.TicksPerBeat
    some (firstTickDuration * totalBeatTicks)
  else if totalBeatTicks ≥ beatTickToTimesCount then
    let lastTime := GetLastCalculatedTime s
    let lastTickDuration : ℚ := (60 / |s.LastTempoBPM|) / env.TicksPerBeat
    let remainingTicks : ℤ := (totalBeatTicks - beatTickToTimesCount) + 1
    some (lastTime + lastTickDuration * remainingTicks)
  else
    s.BeatTickToTimes[toSizeT totalBeatTicks]?

/-- The binary search loop of `ConvertTimeToBeatUsingLookupTableBinarySearch` together with the
`return` after it; `left` and `right` are the `i32` bounds. -/
def binarySearch (times : List ℚ) (time : ℚ) (truncTo0 : Bool) (left right : ℤ) : Option ℤ :=
  if left ≤ right then
    let mid := Int.tdiv (left + right) 2
    match times[toSizeT mid]? with
    | none => none
    | some tMid =>
      if time < tMid then binarySearch times time truncTo0 left (mid - 1)
      else if time > tMid then binarySearch times time truncTo0 (mid + 1) right
      else some mid
  else if truncTo0 then some right
  else
    match times[toSizeT left]?, times[toSizeT right]? with
    | some tLeft, some tRight => some (if tLeft - time < time - tRight then left else right)
    | _, _ => none
termination_by (right - left + 1).toNat
decreasing_by
  all_goals simp_wf
  all_goals
    have hmid : left ≤ Int.tdiv (left + right) 2 ∧ Int.tdiv (left + right) 2 ≤ right := by
      rcases le_or_lt 0 (left + right) with h0 | h0
      · rw [Int.tdiv_eq_ediv h0 (by norm_num)]; omega
      · have hneg : left + right = -(-(left + right)) := by ring
        rw [hneg, Int.neg_tdiv, Int.tdiv_eq_ediv (by omega) (by norm_num)]; omega
    omega

/-- The member function `ConvertTimeToBeatUsingLookupTableBinarySearch(time, truncTo0)`; the
result is the `Ticks` of the returned `Beat`. -/
def ConvertTimeToBeatUsingLookupTableBinarySearch (env : Env) (s : TempoMapAccelerationStructure)
    (time : ℚ) (truncTo0 : Bool) : Option ℤ :=
  let beatTickToTimesCount : ℤ := s.BeatTickToTimes.length
  let lastTime := GetLastCalculatedTime s
  if time < 0 then
    let firstTickDuration : ℚ := (60 / |s.FirstTempoBPM|) / env.TicksPerBeat
    some (toI32 (time / firstTickDuration))
  else if time ≥ lastTime then
    let timePastLast := time - lastTime
    let lastTickDuration : ℚ := (60 / |s.LastTempoBPM|) / env.TicksPerBeat
    let ticks : ℚ := timePastLast / lastTickDuration
    some (toI32 (beatTickToTimesCount + ticks - 1))
  else
    binarySearch s.BeatTickToTimes time truncTo0 0 (s.BeatTickToTimes.length - 1)

/-- The one-argument overload `ConvertTimeToBeatUsingLookupTableBinarySearch(time)`, which
passes `truncTo0 = false`. -/
def ConvertTimeToBeatUsingLookupTableBinarySearchDefault (env : Env)
    (s : TempoMapAccelerationStructure) (time : ℚ) : Option ℤ :=
  ConvertTimeToBeatUsingLookupTableBinarySearch env s time false

/-- Modelled from the spec: the helper `ConvertRange` is declared outside the sources at hand;
the specification (section 4.4) describes it as the standard linear range remap, without
clamping, of `value` from the range `oldStart .. oldEnd` onto the range
`newStart .. newEnd`. -/
def ConvertRange (oldStart oldEnd newStart newEnd value : ℚ) : ℚ :=
  newStart + (value - oldStart) * (newEnd - newStart) / (oldEnd - oldStart)

/-- The member function `ConvertBeatAndTimeToHBScrollBeatTickUsingLookupTableIndexing`; `beat`
is `beat.Ticks` and `time` is `time.Seconds`. -/
def ConvertBeatAndTimeToHBScrollBeatTickUsingLookupTableIndexing (env : Env)
    (s : TempoMapAccelerationStructure) (beat : ℤ) (time : ℚ) : Option ℚ :=
  let beatTickToTimesCount : ℤ := s.BeatTickToTimes.length
  let totalBeatTicks := beat
  if totalBeatTicks < 0 then
    let firstTickDuration : ℚ := (60 / s.FirstTempoBPM) / env.TicksPerBeat
    some (time / firstTickDuration)
  else if totalBeatTicks + 1 ≥ beatTickToTimesCount then
    let lastHBScrollBeatTick := GetLastCalculatedHBScrollBeatTick s
    let lastTime := GetLastCalculatedTime s
    let timePastLast := time - lastTime
    let lastTickDuration : ℚ := (60 / s.LastTempoBPM) / env.TicksPerBeat
    let ticks : ℚ := timePastLast / lastTickDuration
    some (lastHBScrollBeatTick + ticks)
  else
    match s.BeatTickToTimes[toSizeT totalBeatTicks]?,
        s.BeatTickToTimes[toSizeT (totalBeatTicks + 1)]?,
        s.BeatTickToHBScrollBeatTicks[toSizeT totalBeatTicks]?,
        s.BeatTickToHBScrollBeatTicks[toSizeT (totalBeatTicks + 1)]? with
    | some timeLeft, some timeRight, some ticksLeft, some ticksRight =>
      some (ConvertRange timeLeft timeRight ticksLeft ticksRight time)
    | _, _, _, _ => none

/-- The values of an `i32`: from `INT_MIN = -2147483648` to `INT_MAX = 2147483647`. -/
def InI32Range (z : ℤ) : Prop :=
  -2147483648 ≤ z ∧ z ≤ 2147483647

instance (z : ℤ) : Decidable (InI32Range z) := by
  unfold InI32Range; infer_instance

/-- Conversion `static_cast<i32>(f64)` with its precondition: the fractional part is discarded,
and the conversion is defined only when the remaining integer is a value of `i32`; otherwise
the behaviour is undefined and there is no result. -/
def staticCastI32 (x : ℚ) : Option ℤ :=
  if InI32Range (toI32 x) then some (toI32 x) else none

/-- Addition of two `i32` values as the machine computes it: the sum wraps around `2 ^ 32`
into the range of `i32`. -/
def addI32 (a b : ℤ) : ℤ :=
  (a + b + 2147483648) % 4294967296 - 2147483648

/-- The member function `ConvertTimeToBeatUsingLookupTableBinarySearch(time, truncTo0)` with the
two `static_cast<i32>` conversions of its extrapolating branches checked against the range of
`i32`; the result is the `Ticks` of the returned `Beat`, and `none` when a conversion is
undefined. -/
def ConvertTimeToBeatUsingLookupTableBinarySearchI32 (env : Env)
    (s : TempoMapAccelerationStructure) (time : ℚ) (truncTo0 : Bool) : Option ℤ :=
  let beatTickToTimesCount : ℤ := s.BeatTickToTimes.length
  let lastTime := GetLastCalculatedTime s
  if time < 0 then
    let firstTickDuration : ℚ := (60 / |s.FirstTempoBPM|) / env.TicksPerBeat
    staticCastI32 (time / firstTickDuration)
  else if time ≥ lastTime then
    let timePastLast := time - lastTime
    let lastTickDuration : ℚ := (60 / |s.LastTempoBPM|) / env.TicksPerBeat
    let ticks : ℚ := timePastLast / lastTickDuration
    staticCastI32 (beatTickToTimesCount + ticks - 1)
  else
    binarySearch s.BeatTickToTimes time truncTo0 0 (s.BeatTickToTimes.length - 1)

/-- The member function `ConvertBeatAndTimeToHBScrollBeatTickUsingLookupTableIndexing` with the
`i32` sum `totalBeatTicks + 1` computed as the machine does, wrapping at `INT_MAX`; `beat` is
`beat.Ticks`, a value of `i32`, and `time` is `time.Seconds`. -/
def ConvertBeatAndTimeToHBScrollBeatTickUsingLookupTableIndexingI32 (env : Env)
    (s : TempoMapAccelerationStructure) (beat : ℤ) (time : ℚ) : Option ℚ :=
  let beatTickToTimesCount : ℤ := s.BeatTickToTimes.length
  let totalBeatTicks := beat
  if totalBeatTicks < 0 then
    let firstTickDuration : ℚ := (60 / s.FirstTempoBPM) / env.TicksPerBeat
    some (time / firstTickDuration)
  else if addI32 totalBeatTicks 1 ≥ beatTickToTimesCount then
    let lastHBScrollBeatTick := GetLastCalculatedHBScrollBeatTick s
    let lastTime := GetLastCalculatedTime s
    let timePastLast := time - lastTime
    let lastTickDuration : ℚ := (60 / s.LastTempoBPM) / env.TicksPerBeat
    let ticks : ℚ := timePastLast / lastTickDuration
    some (lastHBScrollBeatTick + ticks)
  else
    match s.BeatTickToTimes[toSizeT totalBeatTicks]?,
        s.BeatTickToTimes[toSizeT (addI32 totalBeatTicks 1)]?,
        s.BeatTickToHBScrollBeatTicks[toSizeT totalBeatTicks]?,
        s.BeatTickToHBScrollBeatTicks[toSizeT (addI32 totalBeatTicks 1)]? with
    | some timeLeft, some timeRight, some ticksLeft, some ticksRight =>
      some (ConvertRange timeLeft timeRight ticksLeft ticksRight time)
    | _, _, _, _ => none

/-- An environment for the examples: 192 ticks per beat, a fallback tempo of 120 BPM and a
sanitizer that returns its argument. -/
def exampleEnv : Env := ⟨192, 120, fun bpm => bpm⟩

/-- A structure that was never built: empty tables. -/
def emptyIndex : TempoMapAccelerationStructure := ⟨[], [], 0, 0, []⟩

/-- The tempo list of the two-segment example: 120 BPM at tick 0 and 240 BPM at tick 192. -/
def twoSegments : List TempoChange := [⟨0, 120⟩, ⟨192, 240⟩]

/-- The index that `Rebuild` produces for the single tempo change 120 BPM at tick 0: one
tabulated tick. -/
def singleTempoIndex : TempoMapAccelerationStructure := ⟨[0], [0], 120, 120, []⟩

/-- The value of the local `tickDuration` of `Rebuild` while it visits `tempoChange`. -/
def tickDurationOf (env : Env) (tempoChange : TempoChange) : ℚ :=
  |60 / env.SafetyCheckTempo tempoChange.Tempo / env.TicksPerBeat|

/-- The value of the local `tickSign` of `Rebuild` while it visits `tempoChange`. -/
def tickSignOf (env : Env) (tempoChange : TempoChange) : ℚ :=
  Sign (60 / env.SafetyCheckTempo tempoChange.Tempo)

/-! ## Arithmetic of the conversions -/

theorem toSizeT_of_nonneg {i : ℤ} (h : 0 ≤ i) : toSizeT i = i.toNat := by
  simp [toSizeT, h]

theorem toSizeT_natCast (n : ℕ) : toSizeT (n : ℤ) = n := by
  simp [toSizeT]

theorem sizeTPred_of_pos {n : ℕ} (h : 0 < n) : sizeTPred n = n - 1 := by
  simp [sizeTPred, Nat.pos_iff_ne_zero.mp h]

theorem toI32_intCast (z : ℤ) : toI32 (z : ℚ) = z := by
  unfold toI32
  split <;> simp

theorem resize_length (xs : List ℚ) (n : ℕ) : (resize xs n).length = n := by
  simp [resize]
  omega

theorem Sign_eq_intCast (x : ℚ) : ∃ z : ℤ, Sign x = (z : ℚ) ∧ (x < 0 → z = -1) ∧ (0 < x → z = 1) := by
  unfold Sign
  rcases lt_trichotomy x 0 with h | h | h
  · exact ⟨-1, by simp [h], fun _ => rfl, fun h2 => absurd h (not_lt.mpr h2.le)⟩
  · subst h; exact ⟨0, by simp, fun h2 => absurd h2 (lt_irrefl _), fun h2 => absurd h2 (lt_irrefl _)⟩
  · exact ⟨1, by simp [h, not_lt.mpr h.le], fun h2 => absurd h (not_lt.mpr h2.le), fun _ => rfl⟩

/-! ## The fill loop -/

theorem fillTicks_spec (d sg le : ℚ) (lh : ℤ) :
    ∀ (n i t : ℕ) (times hbs : List ℚ), hbs.length = times.length → t + n ≤ times.length →
    ∃ times1 hbs1, fillTicks d sg le lh n i t times hbs = some (times1, hbs1) ∧
      times1.length = times.length ∧ hbs1.length = hbs.length ∧
      (∀ u, u < t → times1[u]? = times[u]? ∧ hbs1[u]? = hbs[u]?) ∧
      (∀ u, t + n ≤ u → times1[u]? = times[u]? ∧ hbs1[u]? = hbs[u]?) ∧
      (∀ j, j < n → times1[t + j]? = some (d * ((i + j : ℕ) : ℚ) + le) ∧
        hbs1[t + j]? = some (sg * ((i + j : ℕ) : ℚ) + lh)) := by
  intro n
  induction n with
  | zero =>
    intro i t times hbs _ _
    exact ⟨times, hbs, rfl, rfl, rfl, fun _ _ => ⟨rfl, rfl⟩, fun _ _ => ⟨rfl, rfl⟩,
      fun j hj => absurd hj (Nat.not_lt_zero j)⟩
  | succ n ih =>
    intro i t times hbs hlen hn
    have ht : t < times.length := by omega
    have ht2 : t < hbs.length := by omega
    obtain ⟨times1, hbs1, hrun, hl1, hl2, hbelow, habove, hin⟩ :=
      ih (i + 1) (t + 1) (times.set t (d * i + le)) (hbs.set t (sg * i + lh))
        (by simp [hlen]) (by simp; omega)
    refine ⟨times1, hbs1, ?_, by simpa using hl1, by simpa using hl2, ?_, ?_, ?_⟩
    · simp only [fillTicks, ht, ht2, and_self, if_true]
      exact hrun
    · intro u hu
      obtain ⟨h1, h2⟩ := hbelow u (by omega)
      have hne : t ≠ u := by omega
      rw [h1, h2, List.getElem?_set_ne hne, List.getElem?_set_ne hne]
      exact ⟨rfl, rfl⟩
    · intro u hu
      obtain ⟨h1, h2⟩ := habove u (by omega)
      have hne : t ≠ u := by omega
      rw [h1, h2, List.getElem?_set_ne hne, List.getElem?_set_ne hne]
      exact ⟨rfl, rfl⟩
    · intro j hj
      rcases Nat.eq_zero_or_pos j with hj0 | hj0
      · subst hj0
        obtain ⟨h1, h2⟩ := hbelow t (by omega)
        simp only [Nat.add_zero]
        rw [h1, h2, List.getElem?_set_self ht, List.getElem?_set_self ht2]
        exact ⟨rfl, rfl⟩
      · obtain ⟨h1, h2⟩ := hin (j - 1) (by omega)
        have e1 : t + 1 + (j - 1) = t + j := by omega
        have e2 : i + 1 + (j - 1) = i + j := by omega
        rw [e1, e2] at h1 h2
        exact ⟨h1, h2⟩

/-! ## The loop over the tempo changes -/

theorem rebuildLoop_single (env : Env) (tempoCount : ℕ) (tc : TempoChange) (idx : ℕ) (le : ℚ)
    (lh : ℤ) (s : TempoMapAccelerationStructure)
    (hidx : idx + 1 = tempoCount) (hb : 0 ≤ tc.Beat)
    (hlen : s.BeatTickToHBScrollBeatTicks.length = s.BeatTickToTimes.length)
    (hN : (s.BeatTickToTimes.length : ℤ) = tc.Beat + 1) :
    ∃ s1, rebuildLoop env tempoCount [tc] idx le lh s = some s1 ∧
      s1.BeatTickToTimes.length = s.BeatTickToTimes.length ∧
      s1.BeatTickToHBScrollBeatTicks.length = s.BeatTickToTimes.length ∧
      s1.LastTempoBPM = env.SafetyCheckTempo tc.Tempo ∧
      s1.FirstTempoBPM = (if idx = 0 then env.SafetyCheckTempo tc.Tempo else s.FirstTempoBPM) ∧
      s1.TempoBuffer = s.TempoBuffer ∧
      (∀ u : ℕ, (u : ℤ) < tc.Beat → s1.BeatTickToTimes[u]? = s.BeatTickToTimes[u]? ∧
        s1.BeatTickToHBScrollBeatTicks[u]? = s.BeatTickToHBScrollBeatTicks[u]?) ∧
      s1.BeatTickToTimes[tc.Beat.toNat]? = some le ∧
      s1.BeatTickToHBScrollBeatTicks[tc.Beat.toNat]? = some (lh : ℚ) := by
  have hbeat : toSizeT tc.Beat = tc.Beat.toNat := toSizeT_of_nonneg hb
  have hNb : s.BeatTickToTimes.length = tc.Beat.toNat + 1 := by omega
  obtain ⟨times1, hbs1, hrun, hl1, hl2, hbelow, -, hin⟩ :=
    fillTicks_spec (tickDurationOf env tc) (tickSignOf env tc) le lh 1 0 tc.Beat.toNat
      s.BeatTickToTimes s.BeatTickToHBScrollBeatTicks hlen (by omega)
  have hlast : (decide (tempoCount = 1) || decide (idx = tempoCount - 1)) = true := by
    have : idx = tempoCount - 1 := by omega
    simp [this]
  have hcnt : s.BeatTickToTimes.length - toSizeT tc.Beat = 1 := by omega
  obtain ⟨h1, h2⟩ := hin 0 (by omega)
  simp only [Nat.add_zero, Nat.cast_zero, mul_zero, zero_add] at h1 h2
  have hr1 : ∃ x, times1[sizeTPred s.BeatTickToTimes.length]? = some x := by
    rw [sizeTPred_of_pos (by omega)]
    exact ⟨_, List.getElem?_eq_getElem (by omega)⟩
  have hr2 : ∃ x, hbs1[sizeTPred s.BeatTickToTimes.length]? = some x := by
    rw [sizeTPred_of_pos (by omega)]
    exact ⟨_, List.getElem?_eq_getElem (by omega)⟩
  obtain ⟨x1, hx1⟩ := hr1
  obtain ⟨x2, hx2⟩ := hr2
  unfold tickDurationOf tickSignOf at hrun
  refine ⟨{ s with
      BeatTickToTimes := times1
      BeatTickToHBScrollBeatTicks := hbs1
      FirstTempoBPM := if idx = 0 then env.SafetyCheckTempo tc.Tempo else s.FirstTempoBPM
      LastTempoBPM := env.SafetyCheckTempo tc.Tempo }, ?_, hl1, hl2.trans hlen, rfl, rfl, rfl, ?_,
      h1, h2⟩
  · rw [hbeat] at hcnt
    simp only [rebuildLoop, hlast, if_true, hbeat, hcnt, hrun, hx1, hx2]
    split <;> rfl
  · intro u hu
    exact hbelow u (by omega)

theorem rebuildLoop_step (env : Env) (tempoCount : ℕ) (tc next : TempoChange)
    (rest : List TempoChange) (idx : ℕ) (le : ℚ) (lh : ℤ) (s : TempoMapAccelerationStructure)
    (hidx : idx + (rest.length + 2) = tempoCount) (hb : 0 ≤ tc.Beat) (hb1 : 1 ≤ next.Beat)
    (hle : tc.Beat ≤ next.Beat)
    (hlen : s.BeatTickToHBScrollBeatTicks.length = s.BeatTickToTimes.length)
    (hN : next.Beat < (s.BeatTickToTimes.length : ℤ)) :
    ∃ times1 hbs1 lastTime lastHB,
      fillTicks (tickDurationOf env tc) (tickSignOf env tc) le lh
          (next.Beat.toNat - tc.Beat.toNat) 0 tc.Beat.toNat
          s.BeatTickToTimes s.BeatTickToHBScrollBeatTicks = some (times1, hbs1) ∧
      times1[next.Beat.toNat - 1]? = some lastTime ∧
      hbs1[next.Beat.toNat - 1]? = some lastHB ∧
      rebuildLoop env tempoCount (tc :: next :: rest) idx le lh s =
        rebuildLoop env tempoCount (next :: rest) (idx + 1)
          (lastTime + tickDurationOf env tc) (toI32 (lastHB + tickSignOf env tc))
          { s with
            BeatTickToTimes := times1
            BeatTickToHBScrollBeatTicks := hbs1
            FirstTempoBPM := if idx = 0 then env.SafetyCheckTempo tc.Tempo else s.FirstTempoBPM
            LastTempoBPM := env.SafetyCheckTempo tc.Tempo } := by
  have hbeat : toSizeT tc.Beat = tc.Beat.toNat := toSizeT_of_nonneg hb
  have hbeat1 : toSizeT next.Beat = next.Beat.toNat := toSizeT_of_nonneg (by omega)
  obtain ⟨times1, hbs1, hrun, hl1, hl2, -, -, -⟩ :=
    fillTicks_spec (tickDurationOf env tc) (tickSignOf env tc) le lh
      (next.Beat.toNat - tc.Beat.toNat) 0 tc.Beat.toNat
      s.BeatTickToTimes s.BeatTickToHBScrollBeatTicks hlen (by omega)
  have hlast : (decide (tempoCount = 1) || decide (idx = tempoCount - 1)) = false := by
    have h1 : tempoCount ≠ 1 := by omega
    have h2 : idx ≠ tempoCount - 1 := by omega
    simp [h1, h2]
  have hcount : 1 < tempoCount := by omega
  have hpred : sizeTPred next.Beat.toNat = next.Beat.toNat - 1 := sizeTPred_of_pos (by omega)
  obtain ⟨x1, hx1⟩ : ∃ x, times1[next.Beat.toNat - 1]? = some x :=
    ⟨_, List.getElem?_eq_getElem (by omega)⟩
  obtain ⟨x2, hx2⟩ : ∃ x, hbs1[next.Beat.toNat - 1]? = some x :=
    ⟨_, List.getElem?_eq_getElem (by omega)⟩
  refine ⟨times1, hbs1, x1, x2, hrun, hx1, hx2, ?_⟩
  unfold tickDurationOf tickSignOf at hrun ⊢
  conv_lhs => rw [rebuildLoop]
  simp only [hlast, Bool.false_eq_true, if_false, List.head?_cons, Option.map_some', hbeat,
    hbeat1, hrun, hcount, if_true, hpred, hx1, hx2]

/-- What the loop over the tempo changes `tc :: rest` leaves in the tables, for changes sorted by
tick (ties allowed) of which only the first may sit at tick zero; the entries themselves are
described when the ticks are strictly ascending. -/
theorem rebuildLoop_spec (env : Env) (tempoCount : ℕ) :
    ∀ (rest : List TempoChange) (tc lastTc : TempoChange) (idx : ℕ) (le : ℚ) (lh : ℤ)
      (s : TempoMapAccelerationStructure),
      idx + (rest.length + 1) = tempoCount →
      (tc :: rest).getLast? = some lastTc →
      0 ≤ tc.Beat →
      (tc :: rest).Pairwise (fun a b => a.Beat ≤ b.Beat) →
      (∀ x ∈ rest, 1 ≤ x.Beat) →
      s.BeatTickToHBScrollBeatTicks.length = s.BeatTickToTimes.length →
      (s.BeatTickToTimes.length : ℤ) = lastTc.Beat + 1 →
      ∃ s1, rebuildLoop env tempoCount (tc :: rest) idx le lh s = some s1 ∧
        s1.BeatTickToTimes.length = s.BeatTickToTimes.length ∧
        s1.BeatTickToHBScrollBeatTicks.length = s.BeatTickToTimes.length ∧
        s1.LastTempoBPM = env.SafetyCheckTempo lastTc.Tempo ∧
        s1.FirstTempoBPM = (if idx = 0 then env.SafetyCheckTempo tc.Tempo else s.FirstTempoBPM) ∧
        s1.TempoBuffer = s.TempoBuffer ∧
        ((tc :: rest).Pairwise (fun a b => a.Beat < b.Beat) →
          (∀ u : ℕ, (u : ℤ) < tc.Beat → s1.BeatTickToTimes[u]? = s.BeatTickToTimes[u]? ∧
            s1.BeatTickToHBScrollBeatTicks[u]? = s.BeatTickToHBScrollBeatTicks[u]?) ∧
          s1.BeatTickToTimes[tc.Beat.toNat]? = some le ∧
          s1.BeatTickToHBScrollBeatTicks[tc.Beat.toNat]? = some (lh : ℚ) ∧
          (∀ pre a b post, tc :: rest = pre ++ a :: b :: post →
            ∀ t : ℕ, a.Beat ≤ (t : ℤ) → (t : ℤ) < b.Beat →
              ∃ x h, s1.BeatTickToTimes[t]? = some x ∧
                s1.BeatTickToTimes[t + 1]? = some (x + tickDurationOf env a) ∧
                s1.BeatTickToHBScrollBeatTicks[t]? = some h ∧
                s1.BeatTickToHBScrollBeatTicks[t + 1]? = some (h + tickSignOf env a))) := by
  intro rest
  induction rest with
  | nil =>
    intro tc lastTc idx le lh s hidx hlast hb _ _ hlen hN
    simp only [List.getLast?_singleton, Option.some.injEq] at hlast
    subst hlast
    obtain ⟨s1, hrun, hl1, hl2, hL, hF, hB, hbelow, h1, h2⟩ :=
      rebuildLoop_single env tempoCount tc idx le lh s (by simpa using hidx) hb hlen hN
    refine ⟨s1, hrun, hl1, hl2, hL, hF, hB, fun _ => ⟨hbelow, h1, h2, ?_⟩⟩
    intro pre a b post hsplit
    have := congrArg List.length hsplit
    simp at this
    omega
  | cons next rest ih =>
    intro tc lastTc idx le lh s hidx hlast hb hsorted hpos hlen hN
    have hlast1 : (next :: rest).getLast? = some lastTc := by
      simpa [List.getLast?_cons_cons] using hlast
    have hsorted1 : (next :: rest).Pairwise (fun a b => a.Beat ≤ b.Beat) :=
      (List.pairwise_cons.mp hsorted).2
    have hle : tc.Beat ≤ next.Beat := (List.pairwise_cons.mp hsorted).1 next (by simp)
    have hb1 : 1 ≤ next.Beat := hpos next (by simp)
    have hlastmem : lastTc ∈ next :: rest := List.mem_of_getLast?_eq_some hlast1
    have hnl : next.Beat ≤ lastTc.Beat := by
      rcases List.mem_cons.mp hlastmem with h | h
      · rw [h]
      · exact (List.pairwise_cons.mp hsorted1).1 lastTc h
    obtain ⟨times1, hbs1, lastTime, lastHB, hfill, hx1, hx2, hstep⟩ :=
      rebuildLoop_step env tempoCount tc next rest idx le lh s (by simpa using hidx) hb hb1 hle
        hlen (by omega)
    obtain ⟨times1b, hbs1b, hfill2, hl1, hl2, hbelow, -, hin⟩ :=
      fillTicks_spec (tickDurationOf env tc) (tickSignOf env tc) le lh
        (next.Beat.toNat - tc.Beat.toNat) 0 tc.Beat.toNat
        s.BeatTickToTimes s.BeatTickToHBScrollBeatTicks hlen (by omega)
    rw [hfill] at hfill2
    simp only [Option.some.injEq, Prod.mk.injEq] at hfill2
    obtain ⟨e1, e2⟩ := hfill2
    subst e1 e2
    obtain ⟨s1, hrun, hl1b, hl2b, hL, hF, hB, hstrict⟩ :=
      ih next lastTc (idx + 1) (lastTime + tickDurationOf env tc)
        (toI32 (lastHB + tickSignOf env tc))
        { s with
          BeatTickToTimes := times1
          BeatTickToHBScrollBeatTicks := hbs1
          FirstTempoBPM := if idx = 0 then env.SafetyCheckTempo tc.Tempo else s.FirstTempoBPM
          LastTempoBPM := env.SafetyCheckTempo tc.Tempo }
        (by simp at hidx ⊢; omega) hlast1 (by omega) hsorted1
        (fun x hx => hpos x (List.mem_cons_of_mem _ hx))
        (by simp only; omega) (by simp only; omega)
    simp only at hl1b hl2b hF hB hstrict
    refine ⟨s1, by rw [hstep]; exact hrun, by omega, by omega, hL, ?_, hB, ?_⟩
    · simpa using hF
    · intro hs
      have hs1 : (next :: rest).Pairwise (fun a b => a.Beat < b.Beat) :=
        (List.pairwise_cons.mp hs).2
      have hlt : tc.Beat < next.Beat := (List.pairwise_cons.mp hs).1 next (by simp)
      obtain ⟨hA, hT, hH, hC⟩ := hstrict hs1
      have hin0 := hin 0 (by omega)
      simp only [Nat.add_zero, Nat.cast_zero, mul_zero, zero_add] at hin0
      have hAb := hA tc.Beat.toNat (by omega)
      -- the value carried into the next segment is an integer
      obtain ⟨z, hz, -, -⟩ := Sign_eq_intCast (60 / env.SafetyCheckTempo tc.Tempo)
      have hlastIn := hin (next.Beat.toNat - 1 - tc.Beat.toNat) (by omega)
      have eidx : tc.Beat.toNat + (next.Beat.toNat - 1 - tc.Beat.toNat) = next.Beat.toNat - 1 := by
        omega
      rw [eidx, hx1, hx2] at hlastIn
      simp only [Option.some.injEq, Nat.zero_add] at hlastIn
      obtain ⟨hlt1, hlh1⟩ := hlastIn
      have hcast : ((toI32 (lastHB + tickSignOf env tc) : ℤ) : ℚ) = lastHB + tickSignOf env tc := by
        have hsg : tickSignOf env tc = (z : ℚ) := hz
        rw [hlh1, hsg]
        have : (z : ℚ) * ((next.Beat.toNat - 1 - tc.Beat.toNat : ℕ) : ℚ) + (lh : ℚ) + (z : ℚ)
            = ((z * ((next.Beat.toNat - 1 - tc.Beat.toNat : ℕ) : ℤ) + lh + z : ℤ) : ℚ) := by
          push_cast; ring
        rw [this, toI32_intCast]
      refine ⟨?_, ?_, ?_, ?_⟩
      · intro u hu
        obtain ⟨a1, a2⟩ := hA u (by omega)
        obtain ⟨b1, b2⟩ := hbelow u (by omega)
        exact ⟨a1.trans b1, a2.trans b2⟩
      · rw [hAb.1]; exact hin0.1
      · rw [hAb.2]; exact hin0.2
      · intro pre a b post hsplit t hat htb
        cases pre with
        | nil =>
          simp only [List.nil_append, List.cons.injEq] at hsplit
          obtain ⟨ha, hb2, -⟩ := hsplit
          subst ha hb2
          have hinj := hin (t - tc.Beat.toNat) (by omega)
          have et : tc.Beat.toNat + (t - tc.Beat.toNat) = t := by omega
          rw [et] at hinj
          simp only [Nat.zero_add] at hinj
          obtain ⟨at1, at2⟩ := hA t (by omega)
          refine ⟨_, _, at1.trans hinj.1, ?_, at2.trans hinj.2, ?_⟩
          · rcases Nat.lt_or_ge (t + 1) tc.Beat.toNat.succ with hcase | hcase
            · omega
            · rcases Nat.lt_or_ge (t + 1) next.Beat.toNat with hc | hc
              · have hinj1 := hin (t + 1 - tc.Beat.toNat) (by omega)
                have et1 : tc.Beat.toNat + (t + 1 - tc.Beat.toNat) = t + 1 := by omega
                rw [et1] at hinj1
                simp only [Nat.zero_add] at hinj1
                rw [(hA (t + 1) (by omega)).1, hinj1.1]
                have ec : ((t + 1 - tc.Beat.toNat : ℕ) : ℚ) = ((t - tc.Beat.toNat : ℕ) : ℚ) + 1 := by
                  have : t + 1 - tc.Beat.toNat = t - tc.Beat.toNat + 1 := by omega
                  rw [this]; push_cast; ring
                rw [ec]; congr 1; ring
              · have en : t + 1 = next.Beat.toNat := by omega
                have et2 : t - tc.Beat.toNat = next.Beat.toNat - 1 - tc.Beat.toNat := by omega
                rw [en, hT, hlt1, et2]
          · rcases Nat.lt_or_ge (t + 1) next.Beat.toNat with hc | hc
            · have hinj1 := hin (t + 1 - tc.Beat.toNat) (by omega)
              have et1 : tc.Beat.toNat + (t + 1 - tc.Beat.toNat) = t + 1 := by omega
              rw [et1] at hinj1
              simp only [Nat.zero_add] at hinj1
              rw [(hA (t + 1) (by omega)).2, hinj1.2]
              have ec : ((t + 1 - tc.Beat.toNat : ℕ) : ℚ) = ((t - tc.Beat.toNat : ℕ) : ℚ) + 1 := by
                have : t + 1 - tc.Beat.toNat = t - tc.Beat.toNat + 1 := by omega
                rw [this]; push_cast; ring
              rw [ec]; congr 1; ring
            · have en : t + 1 = next.Beat.toNat := by omega
              have et2 : t - tc.Beat.toNat = next.Beat.toNat - 1 - tc.Beat.toNat := by omega
              rw [en, hH, hcast, hlh1, et2]
        | cons p pre1 =>
          simp only [List.cons_append, List.cons.injEq] at hsplit
          exact hC pre1 a b post hsplit.2 t hat htb

/-! ## The build -/

theorem adjustedTempoChanges_spec (env : Env) (l : List TempoChange)
    (hsorted : l.Pairwise (fun a b => a.Beat ≤ b.Beat)) (hnonneg : ∀ tc ∈ l, 0 ≤ tc.Beat)
    (htail : ∀ tc ∈ l.tail, 1 ≤ tc.Beat) :
    ∃ tc0 rest, adjustedTempoChanges env l = tc0 :: rest ∧ tc0.Beat = 0 ∧
      (tc0 :: rest).Pairwise (fun a b => a.Beat ≤ b.Beat) ∧ (∀ x ∈ rest, 1 ≤ x.Beat) ∧
      (l.Pairwise (fun a b => a.Beat < b.Beat) →
        (tc0 :: rest).Pairwise (fun a b => a.Beat < b.Beat)) := by
  cases l with
  | nil =>
    exact ⟨⟨0, env.FallbackTempo⟩, [], rfl, rfl, by simp, by simp, fun _ => by simp⟩
  | cons first tl =>
    by_cases hfirst : first.Beat > 0
    · have hall : ∀ x ∈ first :: tl, 1 ≤ x.Beat := by
        intro x hx
        rcases List.mem_cons.mp hx with h | h
        · rw [h]; omega
        · exact htail x h
      refine ⟨⟨0, env.FallbackTempo⟩, first :: tl, by simp [adjustedTempoChanges, hfirst], rfl,
        ?_, hall, ?_⟩
      · refine List.pairwise_cons.mpr ⟨fun x hx => ?_, hsorted⟩
        have := hall x hx
        show (0 : ℤ) ≤ x.Beat
        omega
      · intro hs
        refine List.pairwise_cons.mpr ⟨fun x hx => ?_, hs⟩
        have := hall x hx
        show (0 : ℤ) < x.Beat
        omega
    · have h0 : first.Beat = 0 := by
        have := hnonneg first (by simp)
        omega
      exact ⟨first, tl, by simp [adjustedTempoChanges, hfirst], h0, hsorted,
        fun x hx => htail x hx, fun hs => hs⟩

/-- The result of `Rebuild` for tempo changes sorted by non-negative tick (ties allowed) with at
most one change at tick zero: the build succeeds, the tables have one entry per tick up to the
last change, and the cached tempos are those of the first and last change worked on. For
strictly ascending ticks the entries start at zero and advance by the tick duration and the tick
sign of the segment. -/
theorem Rebuild_spec (env : Env) (s0 : TempoMapAccelerationStructure) (l : List TempoChange)
    (hsorted : l.Pairwise (fun a b => a.Beat ≤ b.Beat)) (hnonneg : ∀ tc ∈ l, 0 ≤ tc.Beat)
    (htail : ∀ tc ∈ l.tail, 1 ≤ tc.Beat) :
    ∃ s tc0 rest lastTc, adjustedTempoChanges env l = tc0 :: rest ∧ tc0.Beat = 0 ∧
      (tc0 :: rest).getLast? = some lastTc ∧ 0 ≤ lastTc.Beat ∧
      Rebuild env s0 l = some s ∧
      (s.BeatTickToTimes.length : ℤ) = lastTc.Beat + 1 ∧
      s.BeatTickToHBScrollBeatTicks.length = s.BeatTickToTimes.length ∧
      s.FirstTempoBPM = env.SafetyCheckTempo tc0.Tempo ∧
      s.LastTempoBPM = env.SafetyCheckTempo lastTc.Tempo ∧
      s.TempoBuffer = [] ∧
      (l.Pairwise (fun a b => a.Beat < b.Beat) →
        (tc0 :: rest).Pairwise (fun a b => a.Beat < b.Beat) ∧
        s.BeatTickToTimes[0]? = some 0 ∧
        s.BeatTickToHBScrollBeatTicks[0]? = some 0 ∧
        (∀ pre a b post, tc0 :: rest = pre ++ a :: b :: post →
          ∀ t : ℕ, a.Beat ≤ (t : ℤ) → (t : ℤ) < b.Beat →
            ∃ x h, s.BeatTickToTimes[t]? = some x ∧
              s.BeatTickToTimes[t + 1]? = some (x + tickDurationOf env a) ∧
              s.BeatTickToHBScrollBeatTicks[t]? = some h ∧
              s.BeatTickToHBScrollBeatTicks[t + 1]? = some (h + tickSignOf env a))) := by
  obtain ⟨tc0, rest, hadj, h0, hsorted1, hpos, hstrict1⟩ :=
    adjustedTempoChanges_spec env l hsorted hnonneg htail
  obtain ⟨lastTc, hlast⟩ : ∃ lastTc, (tc0 :: rest).getLast? = some lastTc :=
    ⟨_, List.getLast?_eq_getLast _ (List.cons_ne_nil _ _)⟩
  have hlastmem : lastTc ∈ tc0 :: rest := List.mem_of_getLast?_eq_some hlast
  have hlastnn : 0 ≤ lastTc.Beat := by
    rcases List.mem_cons.mp hlastmem with h | h
    · rw [h, h0]
    · have := hpos lastTc h
      omega
  have hn : nTickValues (tc0 :: rest) = (lastTc.Beat + 1).toNat := by
    simp only [nTickValues, hlast]
    exact toSizeT_of_nonneg (by omega)
  obtain ⟨s1, hrun, hl1, hl2, hL, hF, hB, hvals⟩ :=
    rebuildLoop_spec env (tc0 :: rest).length rest tc0 lastTc 0 0 0
      { s0 with
        BeatTickToTimes := resize s0.BeatTickToTimes (nTickValues (tc0 :: rest))
        BeatTickToHBScrollBeatTicks := resize s0.BeatTickToHBScrollBeatTicks
          (nTickValues (tc0 :: rest)) }
      (by simp) hlast (by omega) hsorted1 hpos
      (by simp only [resize_length])
      (by simp only [resize_length, hn]; omega)
  simp only [resize_length, if_true] at hl1 hl2 hF
  refine ⟨{ s1 with TempoBuffer := [] }, tc0, rest, lastTc, hadj, h0, hlast, hlastnn, ?_, ?_, ?_,
    hF, hL, rfl, ?_⟩
  · simp only [Rebuild, hadj, hrun, Option.map_some']
  · simp only [hl1, hn]; omega
  · simp only [hl1, hl2]
  · intro hs
    obtain ⟨-, hT, hH, hC⟩ := hvals (hstrict1 hs)
    rw [h0] at hT hH
    exact ⟨hstrict1 hs, by simpa using hT, by simpa using hH, hC⟩

/-- Every tick from the first change on and before the last change lies in a segment, between
two neighbouring tempo changes. -/
theorem segment_cover : ∀ (rest : List TempoChange) (tc lastTc : TempoChange) (t : ℤ),
    (tc :: rest).getLast? = some lastTc → tc.Beat ≤ t → t < lastTc.Beat →
    ∃ pre a b post, tc :: rest = pre ++ a :: b :: post ∧ a.Beat ≤ t ∧ t < b.Beat := by
  intro rest
  induction rest with
  | nil =>
    intro tc lastTc t hlast h1 h2
    simp only [List.getLast?_singleton, Option.some.injEq] at hlast
    subst hlast
    omega
  | cons next rest ih =>
    intro tc lastTc t hlast h1 h2
    by_cases hn : t < next.Beat
    · exact ⟨[], tc, next, rest, rfl, h1, hn⟩
    · have hlast1 : (next :: rest).getLast? = some lastTc := by
        simpa [List.getLast?_cons_cons] using hlast
      obtain ⟨pre, a, b, post, hsplit, ha, hb⟩ := ih next lastTc t hlast1 (by omega) h2
      exact ⟨tc :: pre, a, b, post, by rw [hsplit]; rfl, ha, hb⟩

theorem mem_adjustedTempoChanges (env : Env) (l : List TempoChange) (tc : TempoChange)
    (h : tc ∈ adjustedTempoChanges env l) : tc = ⟨0, env.FallbackTempo⟩ ∨ tc ∈ l := by
  cases l with
  | nil =>
    simp only [adjustedTempoChanges, List.mem_singleton] at h
    exact Or.inl h
  | cons first tl =>
    simp only [adjustedTempoChanges] at h
    split at h
    · rcases List.mem_cons.mp h with h1 | h1
      · exact Or.inl h1
      · exact Or.inr h1
    · exact Or.inr h

theorem validTempo_adjusted (env : Env) (l : List TempoChange)
    (hfb : ValidTempo env env.FallbackTempo) (hvalid : ∀ tc ∈ l, ValidTempo env tc.Tempo) :
    ∀ tc ∈ adjustedTempoChanges env l, ValidTempo env tc.Tempo := by
  intro tc htc
  rcases mem_adjustedTempoChanges env l tc htc with h | h
  · rw [h]; exact hfb
  · exact hvalid tc h

theorem tickDurationOf_valid (env : Env) (tc : TempoChange) (hT : 0 < env.TicksPerBeat)
    (hv : ValidTempo env tc.Tempo) :
    tickDurationOf env tc = |60 / tc.Tempo| / env.TicksPerBeat ∧ 0 < tickDurationOf env tc := by
  have hTq : (0 : ℚ) < (env.TicksPerBeat : ℚ) := by exact_mod_cast hT
  have hne : (60 : ℚ) / tc.Tempo ≠ 0 := div_ne_zero (by norm_num) hv.1
  have heq : tickDurationOf env tc = |60 / tc.Tempo| / env.TicksPerBeat := by
    unfold tickDurationOf
    rw [hv.2, abs_div, abs_of_pos hTq]
  exact ⟨heq, by rw [heq]; exact div_pos (abs_pos.mpr hne) hTq⟩

theorem tickSignOf_valid (env : Env) (tc : TempoChange) (hv : ValidTempo env tc.Tempo) :
    (tc.Tempo < 0 → tickSignOf env tc = -1) ∧ (0 < tc.Tempo → tickSignOf env tc = 1) := by
  unfold tickSignOf
  rw [hv.2]
  constructor
  · intro h
    have : (60 : ℚ) / tc.Tempo < 0 := div_neg_of_pos_of_neg (by norm_num) h
    simp [Sign, this]
  · intro h
    have : (0 : ℚ) < 60 / tc.Tempo := div_pos (by norm_num) h
    simp [Sign, this, not_lt.mpr this.le]

theorem pairwise_lt_of_steps (xs : List ℚ)
    (h : ∀ t, t + 1 < xs.length → ∃ x y, xs[t]? = some x ∧ xs[t + 1]? = some y ∧ x < y) :
    xs.Pairwise (fun a b => a < b) := by
  rw [← List.chain'_iff_pairwise, List.chain'_iff_get]
  intro i hi
  obtain ⟨x, y, hx, hy, hxy⟩ := h i (by omega)
  rw [List.getElem?_eq_getElem (by omega)] at hx hy
  simp only [Option.some.injEq] at hx hy
  simp only [List.get_eq_getElem]
  rw [hx, hy]
  exact hxy

theorem tail_pos_of_strict (l : List TempoChange)
    (hsorted : l.Pairwise (fun a b => a.Beat < b.Beat)) (hnonneg : ∀ tc ∈ l, 0 ≤ tc.Beat) :
    ∀ tc ∈ l.tail, 1 ≤ tc.Beat := by
  cases l with
  | nil => intro tc h; simp at h
  | cons first tl =>
    intro tc h
    have h1 := (List.pairwise_cons.mp hsorted).1 tc h
    have h2 := hnonneg first (by simp)
    omega

/-- The index built from tempo changes strictly ascending by non-negative tick with valid
tempos: the facts the queries rely on. -/
theorem Rebuild_valid (env : Env) (s0 : TempoMapAccelerationStructure) (l : List TempoChange)
    (hT : 0 < env.TicksPerBeat) (hfb : ValidTempo env env.FallbackTempo)
    (hsorted : l.Pairwise (fun a b => a.Beat < b.Beat)) (hnonneg : ∀ tc ∈ l, 0 ≤ tc.Beat)
    (hvalid : ∀ tc ∈ l, ValidTempo env tc.Tempo) :
    ∃ s, Rebuild env s0 l = some s ∧
      1 ≤ s.BeatTickToTimes.length ∧
      s.BeatTickToHBScrollBeatTicks.length = s.BeatTickToTimes.length ∧
      s.BeatTickToTimes[0]? = some 0 ∧
      s.BeatTickToTimes.Pairwise (fun a b => a < b) ∧
      ValidTempo env s.FirstTempoBPM ∧ ValidTempo env s.LastTempoBPM := by
  obtain ⟨s, tc0, rest, lastTc, hadj, h0, hlast, hlastnn, hrun, hN, hlen, hF, hL, -, hvals⟩ :=
    Rebuild_spec env s0 l (hsorted.imp (fun h => le_of_lt h)) hnonneg
      (tail_pos_of_strict l hsorted hnonneg)
  obtain ⟨-, hT0, -, hC⟩ := hvals hsorted
  have hv := validTempo_adjusted env l hfb hvalid
  rw [hadj] at hv
  have hv0 := hv tc0 (by simp)
  have hvl := hv lastTc (List.mem_of_getLast?_eq_some hlast)
  refine ⟨s, hrun, by omega, hlen, hT0, ?_, ?_, ?_⟩
  · apply pairwise_lt_of_steps
    intro t ht
    obtain ⟨pre, a, b, post, hsplit, ha, hb⟩ :=
      segment_cover rest tc0 lastTc (t : ℤ) hlast (by omega) (by omega)
    obtain ⟨x, h, hx, hx1, -, -⟩ := hC pre a b post hsplit t ha hb
    have hmem : a ∈ tc0 :: rest := by rw [hsplit]; simp
    exact ⟨x, _, hx, hx1, by linarith [(tickDurationOf_valid env a hT (hv a hmem)).2]⟩
  · rw [hF, hv0.2]; exact hv0
  · rw [hL, hvl.2]; exact hvl

/-! ## The binary search -/

theorem tdiv_two_eq (a : ℤ) (h : 0 ≤ a) : Int.tdiv a 2 = a / 2 :=
  Int.tdiv_eq_ediv h (by norm_num)

theorem lt_of_sorted_getElem? (times : List ℚ) (hsorted : times.Pairwise (fun a b => a < b))
    {i j : ℕ} {x y : ℚ} (hx : times[i]? = some x) (hy : times[j]? = some y) (hij : i < j) :
    x < y := by
  obtain ⟨hi, rfl⟩ := List.getElem?_eq_some.mp hx
  obtain ⟨hj, rfl⟩ := List.getElem?_eq_some.mp hy
  exact List.pairwise_iff_getElem.mp hsorted i j hi hj hij

theorem le_of_sorted_getElem? (times : List ℚ) (hsorted : times.Pairwise (fun a b => a < b))
    {i j : ℕ} {x y : ℚ} (hx : times[i]? = some x) (hy : times[j]? = some y) (hij : i ≤ j) :
    x ≤ y := by
  rcases Nat.eq_or_lt_of_le hij with h | h
  · subst h
    rw [hx] at hy
    exact le_of_eq (Option.some.inj hy)
  · exact le_of_lt (lt_of_sorted_getElem? times hsorted hx hy h)

/-- The search finds a tabulated time at its own tick. -/
theorem binarySearch_exact (times : List ℚ) (hsorted : times.Pairwise (fun a b => a < b))
    (time : ℚ) (truncTo0 : Bool) (k : ℕ) (hk : times[k]? = some time) :
    ∀ (n : ℕ) (left right : ℤ), (right - left + 1).toNat = n → 0 ≤ left → left ≤ (k : ℤ) →
      (k : ℤ) ≤ right → right < (times.length : ℤ) →
      binarySearch times time truncTo0 left right = some (k : ℤ) := by
  intro n
  induction n using Nat.strong_induction_on with
  | _ n ih =>
    intro left right hn hl hlk hkr hr
    have hlr : left ≤ right := by omega
    have hmid : Int.tdiv (left + right) 2 = (left + right) / 2 := tdiv_two_eq _ (by omega)
    have hm0 : 0 ≤ (left + right) / 2 := by omega
    have hsz : toSizeT ((left + right) / 2) = ((left + right) / 2).toNat := toSizeT_of_nonneg hm0
    obtain ⟨tm, htm⟩ : ∃ tm, times[((left + right) / 2).toNat]? = some tm :=
      ⟨_, List.getElem?_eq_getElem (by omega)⟩
    rw [binarySearch]
    simp only [hlr, if_true, hmid, hsz, htm]
    by_cases h1 : time < tm
    · simp only [h1, if_true]
      have hkm : k < ((left + right) / 2).toNat := by
        by_contra hcon
        have := le_of_sorted_getElem? times hsorted htm hk (by omega)
        linarith
      exact ih _ (by omega) left ((left + right) / 2 - 1) rfl hl hlk (by omega) (by omega)
    · by_cases h2 : time > tm
      · simp only [h1, if_false, h2, if_true]
        have hkm : ((left + right) / 2).toNat < k := by
          by_contra hcon
          have := le_of_sorted_getElem? times hsorted hk htm (by omega)
          linarith
        exact ih _ (by omega) ((left + right) / 2 + 1) right rfl (by omega) (by omega) hkr hr
      · simp only [h1, if_false, h2]
        have heq : tm = time := le_antisymm (not_lt.mp h1) (not_lt.mp h2)
        subst heq
        have hkm : ((left + right) / 2).toNat = k := by
          rcases Nat.lt_trichotomy ((left + right) / 2).toNat k with h | h | h
          · exact absurd (lt_of_sorted_getElem? times hsorted htm hk h) (lt_irrefl _)
          · exact h
          · exact absurd (lt_of_sorted_getElem? times hsorted hk htm h) (lt_irrefl _)
        congr 1
        omega

/-- The search for a time strictly between two neighbouring tabulated times ends with `right` at
the earlier tick and `left` at the later one. -/
theorem binarySearch_between (times : List ℚ) (hsorted : times.Pairwise (fun a b => a < b))
    (time : ℚ) (truncTo0 : Bool) (k : ℕ) (x y : ℚ) (hx : times[k]? = some x)
    (hy : times[k + 1]? = some y) (hxt : x < time) (hty : time < y) :
    ∀ (n : ℕ) (left right : ℤ), (right - left + 1).toNat = n → 0 ≤ left → left ≤ (k : ℤ) + 1 →
      (k : ℤ) ≤ right → right < (times.length : ℤ) →
      binarySearch times time truncTo0 left right =
        some (if truncTo0 then (k : ℤ) else if y - time < time - x then (k : ℤ) + 1 else k) := by
  intro n
  induction n using Nat.strong_induction_on with
  | _ n ih =>
    intro left right hn hl hlk hkr hr
    by_cases hlr : left ≤ right
    · have hmid : Int.tdiv (left + right) 2 = (left + right) / 2 := tdiv_two_eq _ (by omega)
      have hm0 : 0 ≤ (left + right) / 2 := by omega
      have hsz : toSizeT ((left + right) / 2) = ((left + right) / 2).toNat :=
        toSizeT_of_nonneg hm0
      obtain ⟨tm, htm⟩ : ∃ tm, times[((left + right) / 2).toNat]? = some tm :=
        ⟨_, List.getElem?_eq_getElem (by omega)⟩
      rw [binarySearch]
      simp only [hlr, if_true, hmid, hsz, htm]
      by_cases h1 : time < tm
      · simp only [h1, if_true]
        have hkm : k < ((left + right) / 2).toNat := by
          by_contra hcon
          have := le_of_sorted_getElem? times hsorted htm hx (by omega)
          linarith
        exact ih _ (by omega) left ((left + right) / 2 - 1) rfl hl hlk (by omega) (by omega)
      · by_cases h2 : time > tm
        · simp only [h1, if_false, h2, if_true]
          have hkm : ((left + right) / 2).toNat < k + 1 := by
            by_contra hcon
            have := le_of_sorted_getElem? times hsorted hy htm (by omega)
            linarith
          exact ih _ (by omega) ((left + right) / 2 + 1) right rfl (by omega) (by omega) hkr hr
        · exfalso
          have heq : tm = time := le_antisymm (not_lt.mp h1) (not_lt.mp h2)
          subst heq
          rcases Nat.lt_or_ge k ((left + right) / 2).toNat with h | h
          · have := le_of_sorted_getElem? times hsorted hy htm (by omega)
            linarith
          · have := le_of_sorted_getElem? times hsorted htm hx h
            linarith
    · have hleft : left = (k : ℤ) + 1 := by omega
      have hright : right = (k : ℤ) := by omega
      subst hright
      rw [hleft]
      have hs1 : toSizeT ((k : ℤ) + 1) = k + 1 := by
        have : ((k : ℤ) + 1) = ((k + 1 : ℕ) : ℤ) := by push_cast; ring
        rw [this, toSizeT_natCast]
      rw [binarySearch]
      have hnot : ¬ ((k : ℤ) + 1 ≤ (k : ℤ)) := by omega
      simp only [hnot, if_false, hs1, toSizeT_natCast, hx, hy]
      cases truncTo0 <;> simp

/-! ## The inverse query inside the table -/

theorem GetLastCalculatedTime_eq (s : TempoMapAccelerationStructure) (x : ℚ)
    (h : s.BeatTickToTimes[s.BeatTickToTimes.length - 1]? = some x) :
    GetLastCalculatedTime s = x := by
  unfold GetLastCalculatedTime
  rw [List.getLast?_eq_getElem?, h]

/-- A tabulated time is converted back to its own tick, whatever `truncTo0` is. -/
theorem convertTime_exact (env : Env) (s : TempoMapAccelerationStructure)
    (hsorted : s.BeatTickToTimes.Pairwise (fun a b => a < b))
    (h0 : s.BeatTickToTimes[0]? = some 0) (truncTo0 : Bool) (k : ℕ) (time : ℚ)
    (hk : s.BeatTickToTimes[k]? = some time) :
    ConvertTimeToBeatUsingLookupTableBinarySearch env s time truncTo0 = some (k : ℤ) := by
  obtain ⟨hkN, -⟩ := List.getElem?_eq_some.mp hk
  obtain ⟨lastT, hlastT⟩ : ∃ x, s.BeatTickToTimes[s.BeatTickToTimes.length - 1]? = some x :=
    ⟨_, List.getElem?_eq_getElem (by omega)⟩
  have hlast := GetLastCalculatedTime_eq s lastT hlastT
  have hnn : ¬ time < 0 := not_lt.mpr (le_of_sorted_getElem? _ hsorted h0 hk (Nat.zero_le k))
  unfold ConvertTimeToBeatUsingLookupTableBinarySearch
  simp only [hnn, if_false, hlast]
  by_cases hge : time ≥ lastT
  · have hkl : k = s.BeatTickToTimes.length - 1 := by
      by_contra hne
      have := lt_of_sorted_getElem? _ hsorted hk hlastT (by omega)
      linarith
    have htl : time = lastT := by
      rw [← hkl, hk] at hlastT
      exact Option.some.inj hlastT
    have hcast : ((s.BeatTickToTimes.length : ℤ) : ℚ) + (time - lastT) /
        (60 / |s.LastTempoBPM| / (env.TicksPerBeat : ℚ)) - 1 = ((k : ℤ) : ℚ) := by
      rw [htl, sub_self, zero_div, add_zero]
      have : (k : ℤ) = (s.BeatTickToTimes.length : ℤ) - 1 := by omega
      rw [this]
      push_cast
      ring
    simp only [hge, if_true, hcast, toI32_intCast]
  · simp only [hge, if_false]
    exact binarySearch_exact _ hsorted time truncTo0 k hk _ 0 _ rfl (le_refl 0) (by omega)
      (by omega) (by omega)

/-- A time strictly between two neighbouring tabulated times: the truncating query returns the
earlier tick, the default query the nearer one, the earlier one on a tie. -/
theorem convertTime_between (env : Env) (s : TempoMapAccelerationStructure)
    (hsorted : s.BeatTickToTimes.Pairwise (fun a b => a < b))
    (h0 : s.BeatTickToTimes[0]? = some 0) (truncTo0 : Bool) (k : ℕ) (x y time : ℚ)
    (hx : s.BeatTickToTimes[k]? = some x) (hy : s.BeatTickToTimes[k + 1]? = some y)
    (hxt : x < time) (hty : time < y) :
    ConvertTimeToBeatUsingLookupTableBinarySearch env s time truncTo0 =
      some (if truncTo0 then (k : ℤ) else if y - time < time - x then (k : ℤ) + 1 else k) := by
  obtain ⟨hkN, -⟩ := List.getElem?_eq_some.mp hy
  obtain ⟨lastT, hlastT⟩ : ∃ z, s.BeatTickToTimes[s.BeatTickToTimes.length - 1]? = some z :=
    ⟨_, List.getElem?_eq_getElem (by omega)⟩
  have hlast := GetLastCalculatedTime_eq s lastT hlastT
  have hx0 := le_of_sorted_getElem? _ hsorted h0 hx (Nat.zero_le k)
  have hyl := le_of_sorted_getElem? _ hsorted hy hlastT (by omega)
  have hnn : ¬ time < 0 := not_lt.mpr (by linarith)
  have hge : ¬ time ≥ lastT := not_le.mpr (by linarith)
  unfold ConvertTimeToBeatUsingLookupTableBinarySearch
  simp only [hnn, if_false, hlast, hge]
  exact binarySearch_between _ hsorted time truncTo0 k x y hx hy hxt hty _ 0 _ rfl (le_refl 0)
    (by omega) (by omega) (by omega)

/-- A time from the first tabulated time on and before the last one lies between two
neighbouring tabulated times. -/
theorem bracket_exists (times : List ℚ) (time : ℚ) (x0 : ℚ) (h0 : times[0]? = some x0)
    (h0t : x0 ≤ time) :
    ∀ m : ℕ, ∀ xm, times[m]? = some xm → time < xm →
      ∃ k x y, k < m ∧ times[k]? = some x ∧ times[k + 1]? = some y ∧ x ≤ time ∧ time < y := by
  intro m
  induction m with
  | zero =>
    intro xm hm ht
    rw [h0] at hm
    have := Option.some.inj hm
    linarith
  | succ m ih =>
    intro xm hm ht
    obtain ⟨hmN, -⟩ := List.getElem?_eq_some.mp hm
    obtain ⟨xp, hxp⟩ : ∃ z, times[m]? = some z := ⟨_, List.getElem?_eq_getElem (by omega)⟩
    by_cases hp : xp ≤ time
    · exact ⟨m, xp, xm, Nat.lt_succ_self m, hxp, hm, hp, ht⟩
    · obtain ⟨k, x, y, hk, hx, hy, h1, h2⟩ := ih xp hxp (not_le.mp hp)
      exact ⟨k, x, y, by omega, hx, hy, h1, h2⟩

/-! ## The example input -/

theorem exampleEnv_ticks : 0 < exampleEnv.TicksPerBeat := by decide

theorem exampleEnv_valid (bpm : ℚ) (h : bpm ≠ 0) : ValidTempo exampleEnv bpm := ⟨h, rfl⟩

theorem twoSegments_sorted : twoSegments.Pairwise (fun a b => a.Beat < b.Beat) := by
  simp [twoSegments]

theorem twoSegments_nonneg : ∀ tc ∈ twoSegments, 0 ≤ tc.Beat := by
  simp [twoSegments]

theorem twoSegments_valid : ∀ tc ∈ twoSegments, ValidTempo exampleEnv tc.Tempo := by
  intro tc htc
  apply exampleEnv_valid
  simp only [twoSegments, List.mem_cons, List.mem_singleton, List.not_mem_nil, or_false] at htc
  rcases htc with h | h <;> rw [h] <;> norm_num

theorem Rebuild_singleTempo :
    Rebuild exampleEnv emptyIndex [⟨0, 120⟩] = some singleTempoIndex := by
  simp [Rebuild, adjustedTempoChanges, nTickValues, toSizeT, resize, emptyIndex, rebuildLoop,
    fillTicks, exampleEnv, sizeTPred, singleTempoIndex]

theorem abs_sixty_div (bpm : ℚ) : |60 / bpm| = 60 / |bpm| := by
  rw [abs_div, abs_of_pos (by norm_num : (0 : ℚ) < 60)]

theorem convertBeatToTime_past_end (env : Env) (s : TempoMapAccelerationStructure) (lastT : ℚ)
    (hlast : s.BeatTickToTimes[s.BeatTickToTimes.length - 1]? = some lastT) (j : ℤ)
    (hj : (s.BeatTickToTimes.length : ℤ) ≤ j) :
    ConvertBeatToTimeUsingLookupTableIndexing env s j =
      some (lastT + (|60 / s.LastTempoBPM| / env.TicksPerBeat) *
        ((j - s.BeatTickToTimes.length + 1 : ℤ) : ℚ)) := by
  have hlastT := GetLastCalculatedTime_eq s lastT hlast
  have h1 : ¬ (j < 0) := by omega
  simp only [ConvertBeatToTimeUsingLookupTableIndexing, h1, if_false, ge_iff_le, hj, if_true,
    hlastT, abs_sixty_div]

/-! ## Claims -/

/-- C1. Round trip inside the table: for the index built by `Rebuild` from tempo changes strictly
ascending by non-negative tick with valid (non-zero) tempos, every tick `t` below the table
length is converted to a time by `ConvertBeatToTimeUsingLookupTableIndexing`, and
`ConvertTimeToBeatUsingLookupTableBinarySearch` with the default `truncTo0 = false` converts
that time back to exactly `t`. -/
theorem roundTrip_inside_table (env : Env) (s0 : TempoMapAccelerationStructure)
    (l : List TempoChange) (hT : 0 < env.TicksPerBeat) (hfb : ValidTempo env env.FallbackTempo)
    (hsorted : l.Pairwise (fun a b => a.Beat < b.Beat)) (hnonneg : ∀ tc ∈ l, 0 ≤ tc.Beat)
    (hvalid : ∀ tc ∈ l, ValidTempo env tc.Tempo) :
    ∃ s, Rebuild env s0 l = some s ∧
      ∀ t : ℕ, t < s.BeatTickToTimes.length →
        ∃ time, ConvertBeatToTimeUsingLookupTableIndexing env s (t : ℤ) = some time ∧
          ConvertTimeToBeatUsingLookupTableBinarySearchDefault env s time = some (t : ℤ) := by
  obtain ⟨s, hrun, -, -, h0, hmono, -, -⟩ := Rebuild_valid env s0 l hT hfb hsorted hnonneg hvalid
  refine ⟨s, hrun, fun t ht => ?_⟩
  obtain ⟨x, hx⟩ : ∃ x, s.BeatTickToTimes[t]? = some x := ⟨_, List.getElem?_eq_getElem ht⟩
  refine ⟨x, ?_, convertTime_exact env s hmono h0 false t x hx⟩
  have h1 : ¬ ((t : ℤ) < 0) := by omega
  have h2 : ¬ ((t : ℤ) ≥ (s.BeatTickToTimes.length : ℤ)) := by omega
  simp only [ConvertBeatToTimeUsingLookupTableIndexing, h1, h2, if_false, toSizeT_natCast, hx]

theorem roundTrip_inside_table_witness :
    ∃ s, Rebuild exampleEnv emptyIndex twoSegments = some s ∧
      ∀ t : ℕ, t < s.BeatTickToTimes.length →
        ∃ time, ConvertBeatToTimeUsingLookupTableIndexing exampleEnv s (t : ℤ) = some time ∧
          ConvertTimeToBeatUsingLookupTableBinarySearchDefault exampleEnv s time
            = some (t : ℤ) :=
  roundTrip_inside_table exampleEnv emptyIndex twoSegments exampleEnv_ticks
    (exampleEnv_valid _ (by norm_num [exampleEnv])) twoSegments_sorted twoSegments_nonneg
    twoSegments_valid

/-- C2. Nearest-neighbour rule with ties to the earlier tick: the index built from tempo changes
strictly ascending by non-negative tick with valid tempos has a strictly increasing time table,
and for neighbouring entries `x` at tick `k` and `y` at tick `k + 1` and every time strictly
between them the query with `truncTo0 = false` returns `k + 1` when `y - time < time - x` and
`k` otherwise; at the midpoint `(x + y) / 2` it returns the earlier tick `k`. -/
theorem nearest_neighbour_rule (env : Env) (s0 : TempoMapAccelerationStructure)
    (l : List TempoChange) (hT : 0 < env.TicksPerBeat) (hfb : ValidTempo env env.FallbackTempo)
    (hsorted : l.Pairwise (fun a b => a.Beat < b.Beat)) (hnonneg : ∀ tc ∈ l, 0 ≤ tc.Beat)
    (hvalid : ∀ tc ∈ l, ValidTempo env tc.Tempo) :
    ∃ s, Rebuild env s0 l = some s ∧
      s.BeatTickToTimes.Pairwise (fun a b => a < b) ∧
      ∀ (k : ℕ) (x y : ℚ), s.BeatTickToTimes[k]? = some x → s.BeatTickToTimes[k + 1]? = some y →
        (∀ time : ℚ, x < time → time < y →
          ConvertTimeToBeatUsingLookupTableBinarySearch env s time false =
            some (if y - time < time - x then (k : ℤ) + 1 else k)) ∧
        ConvertTimeToBeatUsingLookupTableBinarySearch env s ((x + y) / 2) false
          = some (k : ℤ) := by
  obtain ⟨s, hrun, -, -, h0, hmono, -, -⟩ := Rebuild_valid env s0 l hT hfb hsorted hnonneg hvalid
  refine ⟨s, hrun, hmono, fun k x y hx hy => ⟨fun time hxt hty => ?_, ?_⟩⟩
  · have := convertTime_between env s hmono h0 false k x y time hx hy hxt hty
    simpa using this
  · have hxy : x < y := lt_of_sorted_getElem? _ hmono hx hy (Nat.lt_succ_self k)
    have := convertTime_between env s hmono h0 false k x y ((x + y) / 2) hx hy (by linarith)
      (by linarith)
    have hnot : ¬ (y - (x + y) / 2 < (x + y) / 2 - x) := by
      have : y - (x + y) / 2 = (x + y) / 2 - x := by ring
      rw [this]
      exact lt_irrefl _
    simpa [hnot] using this

theorem nearest_neighbour_rule_witness :
    ∃ s, Rebuild exampleEnv emptyIndex twoSegments = some s ∧
      s.BeatTickToTimes.Pairwise (fun a b => a < b) ∧
      ∀ (k : ℕ) (x y : ℚ), s.BeatTickToTimes[k]? = some x → s.BeatTickToTimes[k + 1]? = some y →
        (∀ time : ℚ, x < time → time < y →
          ConvertTimeToBeatUsingLookupTableBinarySearch exampleEnv s time false =
            some (if y - time < time - x then (k : ℤ) + 1 else k)) ∧
        ConvertTimeToBeatUsingLookupTableBinarySearch exampleEnv s ((x + y) / 2) false
          = some (k : ℤ) :=
  nearest_neighbour_rule exampleEnv emptyIndex twoSegments exampleEnv_ticks
    (exampleEnv_valid _ (by norm_num [exampleEnv])) twoSegments_sorted twoSegments_nonneg
    twoSegments_valid

/-- C3. Truncating mode is a floor over the table: for the index built from tempo changes
strictly ascending by non-negative tick with valid tempos and every time from zero on and
before the last tabulated time, the query with `truncTo0 = true` returns a tick `k` of the table
whose time is at most the query, and no later tick has a time at most the query. -/
theorem truncating_mode_floor (env : Env) (s0 : TempoMapAccelerationStructure)
    (l : List TempoChange) (hT : 0 < env.TicksPerBeat) (hfb : ValidTempo env env.FallbackTempo)
    (hsorted : l.Pairwise (fun a b => a.Beat < b.Beat)) (hnonneg : ∀ tc ∈ l, 0 ≤ tc.Beat)
    (hvalid : ∀ tc ∈ l, ValidTempo env tc.Tempo) :
    ∃ s, Rebuild env s0 l = some s ∧
      ∀ (time lastT : ℚ), s.BeatTickToTimes[s.BeatTickToTimes.length - 1]? = some lastT →
        0 ≤ time → time < lastT →
        ∃ k : ℕ, ConvertTimeToBeatUsingLookupTableBinarySearch env s time true = some (k : ℤ) ∧
          k < s.BeatTickToTimes.length ∧
          (∃ x, s.BeatTickToTimes[k]? = some x ∧ x ≤ time) ∧
          ∀ (j : ℕ) (xj : ℚ), s.BeatTickToTimes[j]? = some xj → xj ≤ time → j ≤ k := by
  obtain ⟨s, hrun, -, -, h0, hmono, -, -⟩ := Rebuild_valid env s0 l hT hfb hsorted hnonneg hvalid
  refine ⟨s, hrun, fun time lastT hlast hnn hlt => ?_⟩
  obtain ⟨k, x, y, -, hx, hy, hxt, hty⟩ :=
    bracket_exists s.BeatTickToTimes time 0 h0 hnn _ lastT hlast hlt
  obtain ⟨hkN, -⟩ := List.getElem?_eq_some.mp hx
  refine ⟨k, ?_, hkN, ⟨x, hx, hxt⟩, fun j xj hj hjt => ?_⟩
  · rcases eq_or_lt_of_le hxt with heq | hlt2
    · rw [heq] at hx
      exact convertTime_exact env s hmono h0 true k time hx
    · have := convertTime_between env s hmono h0 true k x y time hx hy hlt2 hty
      simpa using this
  · by_contra hcon
    have := le_of_sorted_getElem? _ hmono hy hj (by omega)
    linarith

theorem truncating_mode_floor_witness :
    ∃ s, Rebuild exampleEnv emptyIndex twoSegments = some s ∧
      ∀ (time lastT : ℚ), s.BeatTickToTimes[s.BeatTickToTimes.length - 1]? = some lastT →
        0 ≤ time → time < lastT →
        ∃ k : ℕ, ConvertTimeToBeatUsingLookupTableBinarySearch exampleEnv s time true
            = some (k : ℤ) ∧
          k < s.BeatTickToTimes.length ∧
          (∃ x, s.BeatTickToTimes[k]? = some x ∧ x ≤ time) ∧
          ∀ (j : ℕ) (xj : ℚ), s.BeatTickToTimes[j]? = some xj → xj ≤ time → j ≤ k :=
  truncating_mode_floor exampleEnv emptyIndex twoSegments exampleEnv_ticks
    (exampleEnv_valid _ (by norm_num [exampleEnv])) twoSegments_sorted twoSegments_nonneg
    twoSegments_valid

/-- C4, as stated, fails: on the index built from the single tempo change 120 BPM at tick 0
with 192 ticks per beat, the tick duration is `1 / 384` and the time `-1 / 1000` is converted to
tick `0`, while the floor of `time / d` is `-1`. -/
theorem negative_time_floor_counterexample :
    Rebuild exampleEnv emptyIndex [⟨0, 120⟩] = some singleTempoIndex ∧
      ConvertTimeToBeatUsingLookupTableBinarySearch exampleEnv singleTempoIndex (-1 / 1000) false
        = some 0 ∧
      ⌊(-1 / 1000 : ℚ) / (|60 / singleTempoIndex.FirstTempoBPM| / exampleEnv.TicksPerBeat)⌋
        = -1 := by
  refine ⟨Rebuild_singleTempo, ?_, ?_⟩
  · have h : ((-1 / 1000 : ℚ) / (60 / |(120 : ℚ)| / ((192 : ℤ) : ℚ))) = -48 / 125 := by
      norm_num [abs_of_pos]
    have hc : ⌈(-48 / 125 : ℚ)⌉ = 0 := by
      rw [Int.ceil_eq_iff]; norm_num
    simp only [ConvertTimeToBeatUsingLookupTableBinarySearch, singleTempoIndex, exampleEnv]
    rw [if_pos (by norm_num), h]
    simp only [toI32]
    rw [if_neg (by norm_num), hc]
  · have h : ((-1 / 1000 : ℚ) / (|60 / (120 : ℚ)| / ((192 : ℤ) : ℚ))) = -48 / 125 := by
      norm_num [abs_of_pos]
    simp only [singleTempoIndex, exampleEnv]
    rw [h, Int.floor_eq_iff]
    norm_num

/-- C5. Constant step and cross-segment continuity of the time table: after `Rebuild` on tempo
changes strictly ascending by non-negative tick with valid tempos, the time at tick 0 is 0;
every tick `t` with `t + 1` tabulated lies in a segment, that is between two neighbouring tempo
changes `tc` and `next` of the list worked on; and for every such segment and tick,
`TimeAtTick[t + 1] - TimeAtTick[t] = |60 / BPM| / TicksPerBeat` with the BPM of `tc`, also when
`t + 1` is the first tick of the next segment. -/
theorem constant_step_time_table (env : Env) (s0 : TempoMapAccelerationStructure)
    (l : List TempoChange) (hT : 0 < env.TicksPerBeat) (hfb : ValidTempo env env.FallbackTempo)
    (hsorted : l.Pairwise (fun a b => a.Beat < b.Beat)) (hnonneg : ∀ tc ∈ l, 0 ≤ tc.Beat)
    (hvalid : ∀ tc ∈ l, ValidTempo env tc.Tempo) :
    ∃ s, Rebuild env s0 l = some s ∧
      s.BeatTickToTimes[0]? = some 0 ∧
      (∀ t : ℕ, t + 1 < s.BeatTickToTimes.length →
        ∃ pre tc next post, adjustedTempoChanges env l = pre ++ tc :: next :: post ∧
          tc.Beat ≤ (t : ℤ) ∧ (t : ℤ) < next.Beat) ∧
      (∀ pre tc next post, adjustedTempoChanges env l = pre ++ tc :: next :: post →
        ∀ t : ℕ, tc.Beat ≤ (t : ℤ) → (t : ℤ) < next.Beat →
          ∃ x y, s.BeatTickToTimes[t]? = some x ∧ s.BeatTickToTimes[t + 1]? = some y ∧
            y - x = |60 / tc.Tempo| / env.TicksPerBeat) := by
  obtain ⟨s, tc0, rest, lastTc, hadj, h0, hlast, -, hrun, hN, -, -, -, -, hvals⟩ :=
    Rebuild_spec env s0 l (hsorted.imp (fun h => le_of_lt h)) hnonneg
      (tail_pos_of_strict l hsorted hnonneg)
  obtain ⟨-, hT0, -, hC⟩ := hvals hsorted
  have hv := validTempo_adjusted env l hfb hvalid
  refine ⟨s, hrun, hT0, fun t ht => ?_, fun pre tc next post hsplit t ha hb => ?_⟩
  · rw [hadj]
    exact segment_cover rest tc0 lastTc (t : ℤ) hlast (by omega) (by omega)
  · rw [hadj] at hsplit
    obtain ⟨x, h, hx, hx1, -, -⟩ := hC pre tc next post hsplit t ha hb
    have hmem : tc ∈ adjustedTempoChanges env l := by rw [hadj, hsplit]; simp
    refine ⟨x, _, hx, hx1, ?_⟩
    rw [(tickDurationOf_valid env tc hT (hv tc hmem)).1]
    ring

/-- The two-segment example of C5: with 120 BPM at tick 0, 240 BPM at tick 192 and 192 ticks per
beat, `TimeAtTick[192] = TimeAtTick[191] + tickDuration(120)`. -/
theorem constant_step_time_table_witness :
    ∃ s, Rebuild exampleEnv emptyIndex twoSegments = some s ∧
      s.BeatTickToTimes[0]? = some 0 ∧
      ∃ x y, s.BeatTickToTimes[191]? = some x ∧ s.BeatTickToTimes[192]? = some y ∧
        y - x = |60 / 120| / 192 := by
  obtain ⟨s, hrun, h0, -, hstep⟩ :=
    constant_step_time_table exampleEnv emptyIndex twoSegments exampleEnv_ticks
      (exampleEnv_valid _ (by norm_num [exampleEnv])) twoSegments_sorted twoSegments_nonneg
      twoSegments_valid
  obtain ⟨x, y, hx, hy, hxy⟩ :=
    hstep [] ⟨0, 120⟩ ⟨192, 240⟩ [] (by simp [adjustedTempoChanges, twoSegments]) 191
      (by norm_num) (by norm_num)
  exact ⟨s, hrun, h0, x, y, hx, hy, by simpa [exampleEnv] using hxy⟩

theorem getLast?_adjustedTempoChanges (env : Env) (l : List TempoChange) (lastTc : TempoChange)
    (h : l.getLast? = some lastTc) : (adjustedTempoChanges env l).getLast? = some lastTc := by
  cases l with
  | nil => simp at h
  | cons first tl =>
    simp only [adjustedTempoChanges]
    split
    · rw [List.getLast?_cons_cons]; exact h
    · exact h

/-- C6, as stated, fails: the list with 120 BPM at tick 0 and 240 BPM also at tick 0 is sorted
ascending by non-negative tick, and on it `Rebuild` reads `BeatTickToTimes[timesCount - 1]` with
`timesCount = 0`, outside the table, so the build has no defined result. -/
theorem table_domain_counterexample :
    ([⟨0, 120⟩, ⟨0, 240⟩] : List TempoChange).Pairwise (fun a b => a.Beat ≤ b.Beat) ∧
      (∀ tc ∈ ([⟨0, 120⟩, ⟨0, 240⟩] : List TempoChange), 0 ≤ tc.Beat) ∧
      Rebuild exampleEnv emptyIndex [⟨0, 120⟩, ⟨0, 240⟩] = none := by
  refine ⟨by simp, by simp, ?_⟩
  simp [Rebuild, adjustedTempoChanges, nTickValues, toSizeT, resize, emptyIndex, rebuildLoop,
    fillTicks, exampleEnv, sizeTPred]

/-- C6, amended. Table domain: after `Rebuild` on tempo changes sorted ascending by non-negative
tick (ties allowed) with at most one change at tick zero, both tables have the same length `N`,
with `N = 1` for the empty list and `N` the tick of the last supplied change plus one otherwise;
so the tables are never empty after a build. -/
theorem table_domain (env : Env) (s0 : TempoMapAccelerationStructure) (l : List TempoChange)
    (hsorted : l.Pairwise (fun a b => a.Beat ≤ b.Beat)) (hnonneg : ∀ tc ∈ l, 0 ≤ tc.Beat)
    (htail : ∀ tc ∈ l.tail, 1 ≤ tc.Beat) :
    ∃ s, Rebuild env s0 l = some s ∧
      s.BeatTickToHBScrollBeatTicks.length = s.BeatTickToTimes.length ∧
      (l = [] → s.BeatTickToTimes.length = 1) ∧
      (∀ lastTc, l.getLast? = some lastTc →
        (s.BeatTickToTimes.length : ℤ) = lastTc.Beat + 1) ∧
      1 ≤ s.BeatTickToTimes.length := by
  obtain ⟨s, tc0, rest, lastTc, hadj, h0, hlast, hlastnn, hrun, hN, hlen, -, -, -, -⟩ :=
    Rebuild_spec env s0 l hsorted hnonneg htail
  refine ⟨s, hrun, hlen, ?_, ?_, by omega⟩
  · intro hl
    subst hl
    simp only [adjustedTempoChanges, List.cons.injEq] at hadj
    obtain ⟨e1, e2⟩ := hadj
    subst e1 e2
    simp only [List.getLast?_singleton, Option.some.injEq] at hlast
    subst hlast
    simp only at hN
    omega
  · intro lastTc2 hl2
    have := getLast?_adjustedTempoChanges env l lastTc2 hl2
    rw [hadj, hlast] at this
    rw [← Option.some.inj this]
    exact hN

theorem table_domain_witness :
    ∃ s, Rebuild exampleEnv emptyIndex twoSegments = some s ∧
      s.BeatTickToHBScrollBeatTicks.length = s.BeatTickToTimes.length ∧
      (twoSegments = [] → s.BeatTickToTimes.length = 1) ∧
      (∀ lastTc, twoSegments.getLast? = some lastTc →
        (s.BeatTickToTimes.length : ℤ) = lastTc.Beat + 1) ∧
      1 ≤ s.BeatTickToTimes.length :=
  table_domain exampleEnv emptyIndex twoSegments (by simp [twoSegments]) twoSegments_nonneg
    (by simp [twoSegments])

/-- C7, as stated, fails: for the single supplied tempo change 240 BPM at tick 192, a non-empty
list sorted ascending by non-negative tick, `Rebuild` puts the fallback tempo at tick 0 in
front, and `FirstTempoBPM` is the fallback BPM (120 here), not the 240 BPM of the first supplied
change. -/
theorem cached_tempos_counterexample :
    ∃ s, Rebuild exampleEnv emptyIndex [⟨192, 240⟩] = some s ∧
      s.FirstTempoBPM = 120 ∧ s.FirstTempoBPM ≠ 240 := by
  obtain ⟨s, tc0, rest, lastTc, hadj, -, -, -, hrun, -, -, hF, -, -, -⟩ :=
    Rebuild_spec exampleEnv emptyIndex [⟨192, 240⟩] (by simp) (by simp) (by simp)
  simp only [adjustedTempoChanges, gt_iff_lt, show (0 : ℤ) < 192 by norm_num, if_true,
    List.cons.injEq] at hadj
  have h120 : s.FirstTempoBPM = 120 := by
    rw [hF, ← hadj.1]
    rfl
  exact ⟨s, hrun, h120, by rw [h120]; norm_num⟩

/-- C7, amended. Cached tempos after the build: for every non-empty list of tempo changes sorted
ascending by non-negative tick, with at most one change at tick zero and tempos the sanitizer
leaves unchanged, after `Rebuild` `LastTempoBPM` is the BPM of the last supplied change, and
`FirstTempoBPM` is the BPM of the first supplied change when that change is at tick zero and
the BPM of the fallback tempo when it is later. -/
theorem cached_tempos (env : Env) (s0 : TempoMapAccelerationStructure) (first : TempoChange)
    (tl : List TempoChange)
    (hsorted : (first :: tl).Pairwise (fun a b => a.Beat ≤ b.Beat))
    (hnonneg : ∀ tc ∈ first :: tl, 0 ≤ tc.Beat) (htail : ∀ tc ∈ tl, 1 ≤ tc.Beat)
    (hfb : env.SafetyCheckTempo env.FallbackTempo = env.FallbackTempo)
    (hsafe : ∀ tc ∈ first :: tl, env.SafetyCheckTempo tc.Tempo = tc.Tempo) :
    ∃ s lastTc, Rebuild env s0 (first :: tl) = some s ∧
      (first :: tl).getLast? = some lastTc ∧
      s.LastTempoBPM = lastTc.Tempo ∧
      s.FirstTempoBPM = (if first.Beat = 0 then first.Tempo else env.FallbackTempo) := by
  obtain ⟨s, tc0, rest, lastTc, hadj, h0, hlast, -, hrun, -, -, hF, hL, -, -⟩ :=
    Rebuild_spec env s0 (first :: tl) hsorted hnonneg htail
  obtain ⟨lastTc2, hlast2⟩ : ∃ x, (first :: tl).getLast? = some x :=
    ⟨_, List.getLast?_eq_getLast _ (List.cons_ne_nil _ _)⟩
  have hsame := getLast?_adjustedTempoChanges env (first :: tl) lastTc2 hlast2
  rw [hadj, hlast] at hsame
  have hsame2 : lastTc = lastTc2 := Option.some.inj hsame
  subst hsame2
  refine ⟨s, lastTc, hrun, hlast2, ?_, ?_⟩
  · rw [hL]
    exact hsafe lastTc (List.mem_of_getLast?_eq_some hlast2)
  · rw [hF]
    simp only [adjustedTempoChanges] at hadj
    by_cases hpos : first.Beat > 0
    · simp only [hpos, if_true, List.cons.injEq] at hadj
      have hne : ¬ first.Beat = 0 := by omega
      rw [← hadj.1, if_neg hne]
      exact hfb
    · simp only [hpos, if_false, List.cons.injEq] at hadj
      have h00 : first.Beat = 0 := by
        have := hnonneg first (by simp)
        omega
      rw [← hadj.1, if_pos h00]
      exact hsafe first (by simp)

theorem cached_tempos_witness :
    ∃ s lastTc, Rebuild exampleEnv emptyIndex (⟨0, 120⟩ :: [⟨192, 240⟩]) = some s ∧
      (⟨0, 120⟩ :: [⟨192, 240⟩] : List TempoChange).getLast? = some lastTc ∧
      s.LastTempoBPM = lastTc.Tempo ∧
      s.FirstTempoBPM =
        (if (⟨0, 120⟩ : TempoChange).Beat = 0 then (⟨0, 120⟩ : TempoChange).Tempo
          else exampleEnv.FallbackTempo) :=
  cached_tempos exampleEnv emptyIndex ⟨0, 120⟩ [⟨192, 240⟩] (by simp) (by simp) (by simp) rfl
    (fun _ _ => rfl)

/-- C8, as stated, fails: with 192 ticks per beat and the list 120 BPM at tick 0, 240 BPM at
tick 192, the built time table has 193 entries, for the ticks 0 to 192, and no entry at
index 193. -/
theorem second_half_two_segment_counterexample :
    ∃ s, Rebuild exampleEnv emptyIndex twoSegments = some s ∧
      s.BeatTickToTimes.length = 193 ∧ s.BeatTickToTimes[193]? = none := by
  obtain ⟨s, tc0, rest, lastTc, hadj, -, hlast, -, hrun, hN, -, -, -, -, -⟩ :=
    Rebuild_spec exampleEnv emptyIndex twoSegments (by simp [twoSegments]) twoSegments_nonneg
      (by simp [twoSegments])
  simp only [adjustedTempoChanges, twoSegments, gt_iff_lt, lt_irrefl, if_false,
    List.cons.injEq] at hadj
  rw [← hadj.1, ← hadj.2] at hlast
  simp only [List.getLast?_cons_cons, List.getLast?_singleton, Option.some.injEq] at hlast
  rw [← hlast] at hN
  have hlen : s.BeatTickToTimes.length = 193 := by
    simp only at hN
    omega
  exact ⟨s, hrun, hlen, List.getElem?_eq_none (by omega)⟩

/-- C8, amended. Second half of the two-segment test: with 192 ticks per beat and `Rebuild` on
the list 120 BPM at tick 0, 240 BPM at tick 192 (240 BPM being a tempo the sanitizer leaves
unchanged), the time table has 193 entries, the last one at tick 192, and the forward query
continues it with the last tempo: `ConvertBeatToTime(Beat(193)) - TimeAtTick[192]` is
`tickDuration(240) = (60 / 240) / 192`. -/
theorem second_half_two_segment (env : Env) (s0 : TempoMapAccelerationStructure)
    (hT : env.TicksPerBeat = 192) (h240 : env.SafetyCheckTempo 240 = 240) :
    ∃ s, Rebuild env s0 twoSegments = some s ∧
      s.BeatTickToTimes.length = 193 ∧
      ∃ x y, s.BeatTickToTimes[192]? = some x ∧
        ConvertBeatToTimeUsingLookupTableIndexing env s 193 = some y ∧
        y - x = (60 / 240) / 192 := by
  obtain ⟨s, tc0, rest, lastTc, hadj, -, hlast, -, hrun, hN, -, -, hL, -, -⟩ :=
    Rebuild_spec env s0 twoSegments (by simp [twoSegments]) twoSegments_nonneg
      (by simp [twoSegments])
  simp only [adjustedTempoChanges, twoSegments, gt_iff_lt, lt_irrefl, if_false,
    List.cons.injEq] at hadj
  rw [← hadj.1, ← hadj.2] at hlast
  simp only [List.getLast?_cons_cons, List.getLast?_singleton, Option.some.injEq] at hlast
  rw [← hlast] at hN hL
  simp only at hN hL
  have hlen : s.BeatTickToTimes.length = 193 := by omega
  obtain ⟨x, hx⟩ : ∃ x, s.BeatTickToTimes[192]? = some x :=
    ⟨_, List.getElem?_eq_getElem (by omega)⟩
  have hq := convertBeatToTime_past_end env s x (by rw [hlen]; exact hx) 193 (by omega)
  refine ⟨s, hrun, hlen, x, _, hx, hq, ?_⟩
  rw [hL, h240, hT, hlen]
  norm_num [abs_of_pos]

theorem second_half_two_segment_witness :
    ∃ s, Rebuild exampleEnv emptyIndex twoSegments = some s ∧
      s.BeatTickToTimes.length = 193 ∧
      ∃ x y, s.BeatTickToTimes[192]? = some x ∧
        ConvertBeatToTimeUsingLookupTableIndexing exampleEnv s 193 = some y ∧
        y - x = (60 / 240) / 192 :=
  second_half_two_segment exampleEnv emptyIndex rfl rfl

/-- C9. Reverse scroll: after `Rebuild` on tempo changes strictly ascending by non-negative tick
with valid tempos, for every segment, between neighbouring tempo changes `tc` and `next` of the
list worked on, and every tick `t` of the segment, the entries at `t` and `t + 1` are both
tabulated, the time strictly increases from `t` to `t + 1`, and the HBScroll tick at `t + 1` is
the one at `t` minus one when the BPM of `tc` is negative and plus one when it is positive. -/
theorem reverse_scroll (env : Env) (s0 : TempoMapAccelerationStructure)
    (l : List TempoChange) (hT : 0 < env.TicksPerBeat) (hfb : ValidTempo env env.FallbackTempo)
    (hsorted : l.Pairwise (fun a b => a.Beat < b.Beat)) (hnonneg : ∀ tc ∈ l, 0 ≤ tc.Beat)
    (hvalid : ∀ tc ∈ l, ValidTempo env tc.Tempo) :
    ∃ s, Rebuild env s0 l = some s ∧
      ∀ pre tc next post, adjustedTempoChanges env l = pre ++ tc :: next :: post →
        ∀ t : ℕ, tc.Beat ≤ (t : ℤ) → (t : ℤ) < next.Beat →
          ∃ x y h1 h2, s.BeatTickToTimes[t]? = some x ∧ s.BeatTickToTimes[t + 1]? = some y ∧
            s.BeatTickToHBScrollBeatTicks[t]? = some h1 ∧
            s.BeatTickToHBScrollBeatTicks[t + 1]? = some h2 ∧
            x < y ∧ (tc.Tempo < 0 → h2 = h1 - 1) ∧ (0 < tc.Tempo → h2 = h1 + 1) := by
  obtain ⟨s, tc0, rest, lastTc, hadj, h0, hlast, -, hrun, hN, -, -, -, -, hvals⟩ :=
    Rebuild_spec env s0 l (hsorted.imp (fun h => le_of_lt h)) hnonneg
      (tail_pos_of_strict l hsorted hnonneg)
  obtain ⟨-, -, -, hC⟩ := hvals hsorted
  have hv := validTempo_adjusted env l hfb hvalid
  refine ⟨s, hrun, fun pre tc next post hsplit t ha hb => ?_⟩
  have hmem : tc ∈ adjustedTempoChanges env l := by rw [hsplit]; simp
  rw [hadj] at hsplit
  obtain ⟨x, h, hx, hx1, hh, hh1⟩ := hC pre tc next post hsplit t ha hb
  have hd := (tickDurationOf_valid env tc hT (hv tc hmem)).2
  have hs := tickSignOf_valid env tc (hv tc hmem)
  refine ⟨x, _, h, _, hx, hx1, hh, hh1, by linarith, fun hneg => ?_, fun hpos => ?_⟩
  · rw [hs.1 hneg]; ring
  · rw [hs.2 hpos]

/-- A reverse-scroll example for C9: 120 BPM at tick 0, then -240 BPM at tick 3, then 60 BPM at
tick 5. -/
theorem reverse_scroll_witness :
    ∃ s, Rebuild exampleEnv emptyIndex [⟨0, 120⟩, ⟨3, -240⟩, ⟨5, 60⟩] = some s ∧
      ∃ x y h1 h2, s.BeatTickToTimes[4]? = some x ∧ s.BeatTickToTimes[5]? = some y ∧
        s.BeatTickToHBScrollBeatTicks[4]? = some h1 ∧
        s.BeatTickToHBScrollBeatTicks[5]? = some h2 ∧ x < y ∧ h2 = h1 - 1 := by
  obtain ⟨s, hrun, hseg⟩ :=
    reverse_scroll exampleEnv emptyIndex [⟨0, 120⟩, ⟨3, -240⟩, ⟨5, 60⟩] exampleEnv_ticks
      (exampleEnv_valid _ (by norm_num [exampleEnv])) (by simp) (by simp)
      (fun tc htc => exampleEnv_valid _ (by
        simp only [List.mem_cons, List.mem_singleton, List.not_mem_nil, or_false] at htc
        rcases htc with h | h | h <;> rw [h] <;> norm_num))
  obtain ⟨x, y, h1, h2, hx, hy, hh1, hh2, hxy, hneg, -⟩ :=
    hseg [⟨0, 120⟩] ⟨3, -240⟩ ⟨5, 60⟩ [] (by simp [adjustedTempoChanges]) 4
      (by norm_num) (by norm_num)
  exact ⟨s, hrun, x, y, h1, h2, hx, hy, hh1, hh2, hxy, hneg (by norm_num)⟩

/-- C10. Forward extrapolation continues the table without a jump: for every state of the
structure with a non-empty time table of length `N`, in particular every built index, with
`lastT` its last entry, and every tick `k ≥ N`, `ConvertBeatToTime(Beat(k))` is
`lastT + (|60 / LastTempoBPM| / TicksPerBeat) * (k - N + 1)`; in particular
`ConvertBeatToTime(Beat(N - 1)) = lastT` and `ConvertBeatToTime(Beat(N))` is one tick duration
of the last tempo later. -/
theorem forward_extrapolation (env : Env) (s : TempoMapAccelerationStructure) (lastT : ℚ)
    (hlast : s.BeatTickToTimes[s.BeatTickToTimes.length - 1]? = some lastT) (k : ℤ)
    (hk : (s.BeatTickToTimes.length : ℤ) ≤ k) :
    ConvertBeatToTimeUsingLookupTableIndexing env s k =
        some (lastT + (|60 / s.LastTempoBPM| / env.TicksPerBeat) *
          ((k - s.BeatTickToTimes.length + 1 : ℤ) : ℚ)) ∧
      ConvertBeatToTimeUsingLookupTableIndexing env s ((s.BeatTickToTimes.length : ℤ) - 1)
        = some lastT ∧
      ConvertBeatToTimeUsingLookupTableIndexing env s (s.BeatTickToTimes.length : ℤ)
        = some (lastT + |60 / s.LastTempoBPM| / env.TicksPerBeat) := by
  obtain ⟨hN, -⟩ := List.getElem?_eq_some.mp hlast
  have hform := convertBeatToTime_past_end env s lastT hlast
  refine ⟨hform k hk, ?_, ?_⟩
  · have h1 : ¬ ((s.BeatTickToTimes.length : ℤ) - 1 < 0) := by omega
    have h2 : ¬ ((s.BeatTickToTimes.length : ℤ) - 1 ≥ (s.BeatTickToTimes.length : ℤ)) := by omega
    have h3 : toSizeT ((s.BeatTickToTimes.length : ℤ) - 1) = s.BeatTickToTimes.length - 1 := by
      rw [toSizeT_of_nonneg (by omega)]
      omega
    simp only [ConvertBeatToTimeUsingLookupTableIndexing, h1, h2, if_false, h3, hlast]
  · rw [hform _ (le_refl _)]
    simp

theorem forward_extrapolation_witness :
    Rebuild exampleEnv emptyIndex [⟨0, 120⟩] = some singleTempoIndex ∧
      ConvertBeatToTimeUsingLookupTableIndexing exampleEnv singleTempoIndex 5 =
        some (0 + (|60 / singleTempoIndex.LastTempoBPM| / exampleEnv.TicksPerBeat) *
          ((5 - singleTempoIndex.BeatTickToTimes.length + 1 : ℤ) : ℚ)) :=
  ⟨Rebuild_singleTempo,
    (forward_extrapolation exampleEnv singleTempoIndex 0 rfl 5 (by decide)).1⟩

/-- C11. Negative-tick extrapolation: for the index built from tempo changes strictly ascending
by non-negative tick with valid tempos and every tick `t < 0`, `ConvertBeatToTime(Beat(t))` is
`(|60 / FirstTempoBPM| / TicksPerBeat) * t`, a negative time. -/
theorem negative_tick_extrapolation (env : Env) (s0 : TempoMapAccelerationStructure)
    (l : List TempoChange) (hT : 0 < env.TicksPerBeat) (hfb : ValidTempo env env.FallbackTempo)
    (hsorted : l.Pairwise (fun a b => a.Beat < b.Beat)) (hnonneg : ∀ tc ∈ l, 0 ≤ tc.Beat)
    (hvalid : ∀ tc ∈ l, ValidTempo env tc.Tempo) :
    ∃ s, Rebuild env s0 l = some s ∧
      ∀ t : ℤ, t < 0 →
        ConvertBeatToTimeUsingLookupTableIndexing env s t =
          some ((|60 / s.FirstTempoBPM| / env.TicksPerBeat) * (t : ℚ)) ∧
        (|60 / s.FirstTempoBPM| / env.TicksPerBeat) * (t : ℚ) < 0 := by
  obtain ⟨s, hrun, -, -, -, -, hF, -⟩ := Rebuild_valid env s0 l hT hfb hsorted hnonneg hvalid
  have hTq : (0 : ℚ) < (env.TicksPerBeat : ℚ) := by exact_mod_cast hT
  have hd : 0 < |60 / s.FirstTempoBPM| / env.TicksPerBeat :=
    div_pos (abs_pos.mpr (div_ne_zero (by norm_num) hF.1)) hTq
  refine ⟨s, hrun, fun t ht => ⟨?_, ?_⟩⟩
  · simp only [ConvertBeatToTimeUsingLookupTableIndexing, ht, if_true, abs_sixty_div]
  · have htq : (t : ℚ) < 0 := by exact_mod_cast ht
    exact mul_neg_of_pos_of_neg hd htq

/-- The example of C11: with the single tempo change 120 BPM at tick 0 and 192 ticks per beat,
`ConvertBeatToTime(Beat(-192))` is exactly `-1 / 2` seconds. -/
theorem negative_tick_extrapolation_witness :
    Rebuild exampleEnv emptyIndex [⟨0, 120⟩] = some singleTempoIndex ∧
      ConvertBeatToTimeUsingLookupTableIndexing exampleEnv singleTempoIndex (-192)
        = some (-1 / 2) := by
  obtain ⟨s, hrun, hq⟩ :=
    negative_tick_extrapolation exampleEnv emptyIndex [⟨0, 120⟩] exampleEnv_ticks
      (exampleEnv_valid _ (by norm_num [exampleEnv])) (by simp) (by simp)
      (fun tc htc => exampleEnv_valid _ (by
        simp only [List.mem_singleton] at htc
        rw [htc]; norm_num))
  rw [Rebuild_singleTempo] at hrun
  have hs : s = singleTempoIndex := (Option.some.inj hrun).symm
  subst hs
  refine ⟨Rebuild_singleTempo, ?_⟩
  rw [(hq (-192) (by norm_num)).1]
  norm_num [singleTempoIndex, exampleEnv, abs_of_pos]

theorem toI32_of_nonneg {x : ℚ} (h : 0 ≤ x) : toI32 x = ⌊x⌋ := by
  simp [toI32, h]

/-- The past-the-end branch of the inverse query, for a state whose last tabulated time is not
negative. -/
theorem convertTime_past_end (env : Env) (s : TempoMapAccelerationStructure)
    (hT : 0 < env.TicksPerBeat) (lastT : ℚ)
    (hlast : s.BeatTickToTimes[s.BeatTickToTimes.length - 1]? = some lastT) (hl0 : 0 ≤ lastT)
    (time : ℚ) (truncTo0 : Bool) (hge : lastT ≤ time) :
    ConvertTimeToBeatUsingLookupTableBinarySearch env s time truncTo0 =
      some ((s.BeatTickToTimes.length : ℤ) - 1 +
        ⌊(time - lastT) / (|60 / s.LastTempoBPM| / env.TicksPerBeat)⌋) := by
  obtain ⟨hN, -⟩ := List.getElem?_eq_some.mp hlast
  have hlastT := GetLastCalculatedTime_eq s lastT hlast
  have hTq : (0 : ℚ) < (env.TicksPerBeat : ℚ) := by exact_mod_cast hT
  have hd : 0 ≤ |60 / s.LastTempoBPM| / env.TicksPerBeat :=
    div_nonneg (abs_nonneg _) hTq.le
  have hq : 0 ≤ (time - lastT) / (|60 / s.LastTempoBPM| / env.TicksPerBeat) :=
    div_nonneg (by linarith) hd
  have hnn : ¬ time < 0 := not_lt.mpr (by linarith)
  have hge2 : time ≥ lastT := hge
  have hN1 : (1 : ℚ) ≤ ((s.BeatTickToTimes.length : ℤ) : ℚ) := by
    have : (1 : ℤ) ≤ (s.BeatTickToTimes.length : ℤ) := by omega
    exact_mod_cast this
  have hrew : ((s.BeatTickToTimes.length : ℤ) : ℚ) +
      (time - lastT) / (|60 / s.LastTempoBPM| / env.TicksPerBeat) - 1 =
      (((s.BeatTickToTimes.length : ℤ) - 1 : ℤ) : ℚ) +
        (time - lastT) / (|60 / s.LastTempoBPM| / env.TicksPerBeat) := by
    push_cast; ring
  simp only [ConvertTimeToBeatUsingLookupTableBinarySearch, hnn, if_false, hlastT, hge2, if_true,
    ← abs_sixty_div]
  rw [toI32_of_nonneg (by linarith), hrew, Int.floor_int_add]

/-- C12. Past-the-end inverse query: for the index built from tempo changes strictly ascending
by non-negative tick with valid tempos, with `N` entries and `lastT` the last tabulated time,
and every time at or after `lastT`, the query returns, for either value of `truncTo0`, the tick
`N - 1 + floor((time - lastT) / d)` with `d = |60 / LastTempoBPM| / TicksPerBeat`. -/
theorem past_the_end_inverse (env : Env) (s0 : TempoMapAccelerationStructure)
    (l : List TempoChange) (hT : 0 < env.TicksPerBeat) (hfb : ValidTempo env env.FallbackTempo)
    (hsorted : l.Pairwise (fun a b => a.Beat < b.Beat)) (hnonneg : ∀ tc ∈ l, 0 ≤ tc.Beat)
    (hvalid : ∀ tc ∈ l, ValidTempo env tc.Tempo) :
    ∃ s lastT, Rebuild env s0 l = some s ∧ 1 ≤ s.BeatTickToTimes.length ∧
      s.BeatTickToTimes[s.BeatTickToTimes.length - 1]? = some lastT ∧
      ∀ (time : ℚ) (truncTo0 : Bool), lastT ≤ time →
        ConvertTimeToBeatUsingLookupTableBinarySearch env s time truncTo0 =
          some ((s.BeatTickToTimes.length : ℤ) - 1 +
            ⌊(time - lastT) / (|60 / s.LastTempoBPM| / env.TicksPerBeat)⌋) := by
  obtain ⟨s, hrun, hN, -, h0, hmono, -, -⟩ := Rebuild_valid env s0 l hT hfb hsorted hnonneg hvalid
  obtain ⟨lastT, hlast⟩ : ∃ x, s.BeatTickToTimes[s.BeatTickToTimes.length - 1]? = some x :=
    ⟨_, List.getElem?_eq_getElem (by omega)⟩
  have hl0 : 0 ≤ lastT := le_of_sorted_getElem? _ hmono h0 hlast (Nat.zero_le _)
  exact ⟨s, lastT, hrun, hN, hlast, fun time truncTo0 hge =>
    convertTime_past_end env s hT lastT hlast hl0 time truncTo0 hge⟩

theorem past_the_end_inverse_witness :
    ∃ s lastT, Rebuild exampleEnv emptyIndex twoSegments = some s ∧
      1 ≤ s.BeatTickToTimes.length ∧
      s.BeatTickToTimes[s.BeatTickToTimes.length - 1]? = some lastT ∧
      ∀ (time : ℚ) (truncTo0 : Bool), lastT ≤ time →
        ConvertTimeToBeatUsingLookupTableBinarySearch exampleEnv s time truncTo0 =
          some ((s.BeatTickToTimes.length : ℤ) - 1 +
            ⌊(time - lastT) / (|60 / s.LastTempoBPM| / exampleEnv.TicksPerBeat)⌋) :=
  past_the_end_inverse exampleEnv emptyIndex twoSegments exampleEnv_ticks
    (exampleEnv_valid _ (by norm_num [exampleEnv])) twoSegments_sorted twoSegments_nonneg
    twoSegments_valid

/-- C13. Monotonicity of the time table: after `Rebuild` on tempo changes strictly ascending by
non-negative tick in which every BPM is positive (and left unchanged by the sanitizer), the time
table is strictly increasing in the tick: for all ticks `i < j` of the table,
`TimeAtTick[i] < TimeAtTick[j]`. -/
theorem time_table_strictly_increasing (env : Env) (s0 : TempoMapAccelerationStructure)
    (l : List TempoChange) (hT : 0 < env.TicksPerBeat) (hfb : ValidTempo env env.FallbackTempo)
    (hsorted : l.Pairwise (fun a b => a.Beat < b.Beat)) (hnonneg : ∀ tc ∈ l, 0 ≤ tc.Beat)
    (hpos : ∀ tc ∈ l, 0 < tc.Tempo)
    (hsafe : ∀ tc ∈ l, env.SafetyCheckTempo tc.Tempo = tc.Tempo) :
    ∃ s, Rebuild env s0 l = some s ∧
      ∀ i j : ℕ, i < j → j < s.BeatTickToTimes.length →
        ∃ x y, s.BeatTickToTimes[i]? = some x ∧ s.BeatTickToTimes[j]? = some y ∧ x < y := by
  obtain ⟨s, hrun, -, -, -, hmono, -, -⟩ :=
    Rebuild_valid env s0 l hT hfb hsorted hnonneg
      (fun tc htc => ⟨ne_of_gt (hpos tc htc), hsafe tc htc⟩)
  refine ⟨s, hrun, fun i j hij hj => ?_⟩
  obtain ⟨x, hx⟩ : ∃ x, s.BeatTickToTimes[i]? = some x :=
    ⟨_, List.getElem?_eq_getElem (by omega)⟩
  obtain ⟨y, hy⟩ : ∃ y, s.BeatTickToTimes[j]? = some y := ⟨_, List.getElem?_eq_getElem hj⟩
  exact ⟨x, y, hx, hy, lt_of_sorted_getElem? _ hmono hx hy hij⟩

theorem time_table_strictly_increasing_witness :
    ∃ s, Rebuild exampleEnv emptyIndex twoSegments = some s ∧
      ∀ i j : ℕ, i < j → j < s.BeatTickToTimes.length →
        ∃ x y, s.BeatTickToTimes[i]? = some x ∧ s.BeatTickToTimes[j]? = some y ∧ x < y :=
  time_table_strictly_increasing exampleEnv emptyIndex twoSegments exampleEnv_ticks
    (exampleEnv_valid _ (by norm_num [exampleEnv])) twoSegments_sorted twoSegments_nonneg
    (by simp [twoSegments]) (fun _ _ => rfl)

/-- C19. Round trip outside the table: for the index built from tempo changes strictly
ascending by non-negative tick with valid tempos and every integer tick `t` below zero or at or
after the table length, `ConvertBeatToTime` gives a time that `ConvertTimeToBeat` converts back
to `t`, for both values of `truncTo0`. -/
theorem roundTrip_outside_table (env : Env) (s0 : TempoMapAccelerationStructure)
    (l : List TempoChange) (hT : 0 < env.TicksPerBeat) (hfb : ValidTempo env env.FallbackTempo)
    (hsorted : l.Pairwise (fun a b => a.Beat < b.Beat)) (hnonneg : ∀ tc ∈ l, 0 ≤ tc.Beat)
    (hvalid : ∀ tc ∈ l, ValidTempo env tc.Tempo) :
    ∃ s, Rebuild env s0 l = some s ∧
      ∀ (t : ℤ) (truncTo0 : Bool), t < 0 ∨ (s.BeatTickToTimes.length : ℤ) ≤ t →
        ∃ time, ConvertBeatToTimeUsingLookupTableIndexing env s t = some time ∧
          ConvertTimeToBeatUsingLookupTableBinarySearch env s time truncTo0 = some t := by
  obtain ⟨s, hrun, hN, -, h0, hmono, hF, hL⟩ :=
    Rebuild_valid env s0 l hT hfb hsorted hnonneg hvalid
  have hTq : (0 : ℚ) < (env.TicksPerBeat : ℚ) := by exact_mod_cast hT
  refine ⟨s, hrun, fun t truncTo0 ht => ?_⟩
  rcases ht with hneg | hge
  · have hd : 0 < 60 / |s.FirstTempoBPM| / (env.TicksPerBeat : ℚ) :=
      div_pos (div_pos (by norm_num) (abs_pos.mpr hF.1)) hTq
    have htq : (t : ℚ) < 0 := by exact_mod_cast hneg
    have htime : 60 / |s.FirstTempoBPM| / (env.TicksPerBeat : ℚ) * (t : ℚ) < 0 :=
      mul_neg_of_pos_of_neg hd htq
    refine ⟨60 / |s.FirstTempoBPM| / (env.TicksPerBeat : ℚ) * (t : ℚ), ?_, ?_⟩
    · simp only [ConvertBeatToTimeUsingLookupTableIndexing, hneg, if_true]
    · simp only [ConvertTimeToBeatUsingLookupTableBinarySearch, htime, if_true]
      rw [mul_div_cancel_left₀ _ (ne_of_gt hd), toI32_intCast]
  · obtain ⟨lastT, hlast⟩ : ∃ x, s.BeatTickToTimes[s.BeatTickToTimes.length - 1]? = some x :=
      ⟨_, List.getElem?_eq_getElem (by omega)⟩
    have hl0 : 0 ≤ lastT := le_of_sorted_getElem? _ hmono h0 hlast (Nat.zero_le _)
    have hd : 0 < |60 / s.LastTempoBPM| / (env.TicksPerBeat : ℚ) :=
      div_pos (abs_pos.mpr (div_ne_zero (by norm_num) hL.1)) hTq
    have hz : (0 : ℚ) ≤ ((t - s.BeatTickToTimes.length + 1 : ℤ) : ℚ) := by
      have : (0 : ℤ) ≤ t - s.BeatTickToTimes.length + 1 := by omega
      exact_mod_cast this
    refine ⟨_, convertBeatToTime_past_end env s lastT hlast t hge, ?_⟩
    rw [convertTime_past_end env s hT lastT hlast hl0 _ truncTo0
      (by linarith [mul_nonneg hd.le hz])]
    rw [add_sub_cancel_left, mul_div_cancel_left₀ _ (ne_of_gt hd), Int.floor_intCast]
    congr 1
    omega

theorem roundTrip_outside_table_witness :
    ∃ s, Rebuild exampleEnv emptyIndex twoSegments = some s ∧
      ∀ (t : ℤ) (truncTo0 : Bool), t < 0 ∨ (s.BeatTickToTimes.length : ℤ) ≤ t →
        ∃ time, ConvertBeatToTimeUsingLookupTableIndexing exampleEnv s t = some time ∧
          ConvertTimeToBeatUsingLookupTableBinarySearch exampleEnv s time truncTo0 = some t :=
  roundTrip_outside_table exampleEnv emptyIndex twoSegments exampleEnv_ticks
    (exampleEnv_valid _ (by norm_num [exampleEnv])) twoSegments_sorted twoSegments_nonneg
    twoSegments_valid

theorem le_last_of_sorted : ∀ (L : List TempoChange) (lastTc x : TempoChange),
    L.Pairwise (fun a b => a.Beat ≤ b.Beat) → L.getLast? = some lastTc → x ∈ L →
    x.Beat ≤ lastTc.Beat := by
  intro L
  induction L with
  | nil => intro lastTc x _ _ hx; simp at hx
  | cons a rest ih =>
    intro lastTc x hs hlast hx
    cases rest with
    | nil =>
      simp only [List.getLast?_singleton, Option.some.injEq] at hlast
      simp only [List.mem_singleton] at hx
      rw [hx, hlast]
    | cons b rest1 =>
      have hlast1 : (b :: rest1).getLast? = some lastTc := by
        simpa [List.getLast?_cons_cons] using hlast
      rcases List.mem_cons.mp hx with h | h
      · rw [h]
        exact (List.pairwise_cons.mp hs).1 lastTc (List.mem_of_getLast?_eq_some hlast1)
      · exact ih lastTc x (List.pairwise_cons.mp hs).2 hlast1 h

theorem nonneg_of_head (l : List TempoChange)
    (hsorted : l.Pairwise (fun a b => a.Beat < b.Beat))
    (hfirst : ∀ first ∈ l.head?, 0 ≤ first.Beat) : ∀ tc ∈ l, 0 ≤ tc.Beat := by
  cases l with
  | nil => intro tc h; simp at h
  | cons first tl =>
    intro tc h
    have h0 : 0 ≤ first.Beat := hfirst first (by simp)
    rcases List.mem_cons.mp h with h1 | h1
    · rw [h1]; exact h0
    · have := (List.pairwise_cons.mp hsorted).1 tc h1
      omega

/-- C17. `Rebuild` indexes its tables in range: for tempo changes strictly ascending by tick
whose first tick is not negative the build runs to its end with every table access inside the
tables (the embedding returns `none` at any access outside). The tables have the resized length
`N = nTickValues ≥ 1`; a segment between neighbouring changes `tc` and `next` writes the ticks
from `tc.Beat ≥ 0` up to `timesCount = next.Beat`, with `1 ≤ timesCount < N`, and then reads
index `timesCount - 1`; the last segment has `timesCount = N` and starts at tick `N - 1`. -/
theorem rebuild_indexes_in_range (env : Env) (s0 : TempoMapAccelerationStructure)
    (l : List TempoChange) (hsorted : l.Pairwise (fun a b => a.Beat < b.Beat))
    (hfirst : ∀ first ∈ l.head?, 0 ≤ first.Beat) :
    ∃ s, Rebuild env s0 l = some s ∧
      s.BeatTickToTimes.length = nTickValues (adjustedTempoChanges env l) ∧
      s.BeatTickToHBScrollBeatTicks.length = nTickValues (adjustedTempoChanges env l) ∧
      1 ≤ nTickValues (adjustedTempoChanges env l) ∧
      (∀ pre tc next post, adjustedTempoChanges env l = pre ++ tc :: next :: post →
        0 ≤ tc.Beat ∧ tc.Beat < next.Beat ∧ 1 ≤ next.Beat ∧
          next.Beat < (nTickValues (adjustedTempoChanges env l) : ℤ)) ∧
      (∀ lastTc, (adjustedTempoChanges env l).getLast? = some lastTc →
        0 ≤ lastTc.Beat ∧ lastTc.Beat + 1 = (nTickValues (adjustedTempoChanges env l) : ℤ)) := by
  have hnonneg := nonneg_of_head l hsorted hfirst
  obtain ⟨s, tc0, rest, lastTc, hadj, h0, hlast, hlastnn, hrun, hN, hlen, -, -, -, hvals⟩ :=
    Rebuild_spec env s0 l (hsorted.imp (fun h => le_of_lt h)) hnonneg
      (tail_pos_of_strict l hsorted hnonneg)
  obtain ⟨hstrict, -, -, -⟩ := hvals hsorted
  have hn : nTickValues (adjustedTempoChanges env l) = s.BeatTickToTimes.length := by
    rw [hadj]
    simp only [nTickValues, hlast]
    rw [toSizeT_of_nonneg (by omega)]
    omega
  rw [hn, hadj]
  refine ⟨s, hrun, rfl, hlen, by omega, ?_, ?_⟩
  · intro pre tc next post hsplit
    have hweak : (tc0 :: rest).Pairwise (fun a b => a.Beat ≤ b.Beat) :=
      hstrict.imp (fun h => le_of_lt h)
    have hmemtc : tc ∈ tc0 :: rest := by rw [hsplit]; simp
    have hmemnext : next ∈ tc0 :: rest := by rw [hsplit]; simp
    have hfirst0 : ∀ x ∈ tc0 :: rest, 0 ≤ x.Beat := by
      intro x hx
      rcases List.mem_cons.mp hx with h | h
      · rw [h, h0]
      · have := (List.pairwise_cons.mp hstrict).1 x h
        omega
    have hpair : tc.Beat < next.Beat := by
      rw [hsplit] at hstrict
      have h2 := (List.pairwise_append.mp hstrict).2.1
      exact (List.pairwise_cons.mp h2).1 next (by simp)
    have hle := le_last_of_sorted (tc0 :: rest) lastTc next hweak hlast hmemnext
    have := hfirst0 tc hmemtc
    exact ⟨this, hpair, by omega, by omega⟩
  · intro lastTc2 hl2
    rw [hlast] at hl2
    rw [← Option.some.inj hl2]
    exact ⟨hlastnn, by omega⟩

theorem rebuild_indexes_in_range_witness :
    ∃ s, Rebuild exampleEnv emptyIndex twoSegments = some s ∧
      s.BeatTickToTimes.length = nTickValues (adjustedTempoChanges exampleEnv twoSegments) ∧
      s.BeatTickToHBScrollBeatTicks.length
        = nTickValues (adjustedTempoChanges exampleEnv twoSegments) ∧
      1 ≤ nTickValues (adjustedTempoChanges exampleEnv twoSegments) ∧
      (∀ pre tc next post, adjustedTempoChanges exampleEnv twoSegments
          = pre ++ tc :: next :: post →
        0 ≤ tc.Beat ∧ tc.Beat < next.Beat ∧ 1 ≤ next.Beat ∧
          next.Beat < (nTickValues (adjustedTempoChanges exampleEnv twoSegments) : ℤ)) ∧
      (∀ lastTc, (adjustedTempoChanges exampleEnv twoSegments).getLast? = some lastTc →
        0 ≤ lastTc.Beat ∧
          lastTc.Beat + 1 = (nTickValues (adjustedTempoChanges exampleEnv twoSegments) : ℤ)) :=
  rebuild_indexes_in_range exampleEnv emptyIndex twoSegments twoSegments_sorted
    (by simp [twoSegments])

/-- Two tables of the same length that start with the same entry and advance by the same steps
are equal. -/
theorem table_unique (xs ys : List ℚ) (hlen : xs.length = ys.length) (h0 : xs[0]? = ys[0]?)
    (hstep : ∀ t, t + 1 < xs.length → ∃ d x y, xs[t]? = some x ∧ xs[t + 1]? = some (x + d) ∧
      ys[t]? = some y ∧ ys[t + 1]? = some (y + d)) : xs = ys := by
  apply List.ext_getElem?
  intro n
  induction n with
  | zero => exact h0
  | succ n ih =>
    by_cases hn : n + 1 < xs.length
    · obtain ⟨d, x, y, hx, hx1, hy, hy1⟩ := hstep n hn
      rw [hx, hy] at ih
      rw [hx1, hy1, Option.some.inj ih]
    · rw [List.getElem?_eq_none (by omega), List.getElem?_eq_none (by omega)]

/-- C15. The build fully replaces the prior state: for tempo changes strictly ascending by
non-negative tick and any two prior states of the structure, `Rebuild` succeeds on both and
yields one and the same state (the same `BeatTickToTimes`, `BeatTickToHBScrollBeatTicks`,
`FirstTempoBPM` and `LastTempoBPM`), whose scratch `TempoBuffer` is empty. -/
theorem rebuild_replaces_prior_state (env : Env) (s0 s0b : TempoMapAccelerationStructure)
    (l : List TempoChange) (hsorted : l.Pairwise (fun a b => a.Beat < b.Beat))
    (hnonneg : ∀ tc ∈ l, 0 ≤ tc.Beat) :
    ∃ s, Rebuild env s0 l = some s ∧ Rebuild env s0b l = some s ∧ s.TempoBuffer = [] := by
  obtain ⟨s, tc0, rest, lastTc, hadj, h0, hlast, -, hrun, hN, hlen, hF, hL, hB, hvals⟩ :=
    Rebuild_spec env s0 l (hsorted.imp (fun h => le_of_lt h)) hnonneg
      (tail_pos_of_strict l hsorted hnonneg)
  obtain ⟨sb, tc0b, restb, lastTcb, hadjb, -, hlastb, -, hrunb, hNb, hlenb, hFb, hLb, hBb,
      hvalsb⟩ :=
    Rebuild_spec env s0b l (hsorted.imp (fun h => le_of_lt h)) hnonneg
      (tail_pos_of_strict l hsorted hnonneg)
  rw [hadj] at hadjb
  simp only [List.cons.injEq] at hadjb
  obtain ⟨e1, e2⟩ := hadjb
  subst e1 e2
  rw [hlast] at hlastb
  have e3 := Option.some.inj hlastb
  subst e3
  obtain ⟨-, hT0, hH0, hC⟩ := hvals hsorted
  obtain ⟨-, hT0b, hH0b, hCb⟩ := hvalsb hsorted
  have hlenT : s.BeatTickToTimes.length = sb.BeatTickToTimes.length := by omega
  have htimes : s.BeatTickToTimes = sb.BeatTickToTimes := by
    refine table_unique _ _ hlenT (by rw [hT0, hT0b]) (fun t ht => ?_)
    obtain ⟨pre, a, b, post, hsplit, ha, hb⟩ :=
      segment_cover rest tc0 lastTc (t : ℤ) hlast (by omega) (by omega)
    obtain ⟨x, -, hx, hx1, -, -⟩ := hC pre a b post hsplit t ha hb
    obtain ⟨y, -, hy, hy1, -, -⟩ := hCb pre a b post hsplit t ha hb
    exact ⟨tickDurationOf env a, x, y, hx, hx1, hy, hy1⟩
  have hhbs : s.BeatTickToHBScrollBeatTicks = sb.BeatTickToHBScrollBeatTicks := by
    refine table_unique _ _ (by omega) (by rw [hH0, hH0b]) (fun t ht => ?_)
    obtain ⟨pre, a, b, post, hsplit, ha, hb⟩ :=
      segment_cover rest tc0 lastTc (t : ℤ) hlast (by omega) (by omega)
    obtain ⟨-, x, -, -, hx, hx1⟩ := hC pre a b post hsplit t ha hb
    obtain ⟨-, y, -, -, hy, hy1⟩ := hCb pre a b post hsplit t ha hb
    exact ⟨tickSignOf env a, x, y, hx, hx1, hy, hy1⟩
  have hsame : sb = s := by
    cases s
    cases sb
    simp only at htimes hhbs hF hFb hL hLb hB hBb
    simp only [TempoMapAccelerationStructure.mk.injEq]
    exact ⟨htimes.symm, hhbs.symm, by rw [hF, hFb], by rw [hL, hLb], by rw [hB, hBb]⟩
  rw [hsame] at hrunb
  exact ⟨s, hrun, hrunb, hB⟩

/-- Two different prior states for the example of C15: a never-built structure and one with
stale tables, stale cached tempos and a stale scratch buffer. -/
theorem rebuild_replaces_prior_state_witness :
    ∃ s, Rebuild exampleEnv emptyIndex twoSegments = some s ∧
      Rebuild exampleEnv ⟨[7, 8, 9], [1], 33, 44, [⟨5, 60⟩]⟩ twoSegments = some s ∧
      s.TempoBuffer = [] :=
  rebuild_replaces_prior_state exampleEnv emptyIndex ⟨[7, 8, 9], [1], 33, 44, [⟨5, 60⟩]⟩
    twoSegments twoSegments_sorted twoSegments_nonneg

theorem GetLastCalculatedHBScrollBeatTick_eq (s : TempoMapAccelerationStructure) (x : ℚ)
    (h : s.BeatTickToHBScrollBeatTicks[s.BeatTickToHBScrollBeatTicks.length - 1]? = some x) :
    GetLastCalculatedHBScrollBeatTick s = x := by
  unfold GetLastCalculatedHBScrollBeatTick
  rw [List.getLast?_eq_getElem?, h]

/-- The interpolating branch of the HBScroll query, between two tabulated ticks. -/
theorem convertHBScroll_inside (env : Env) (s : TempoMapAccelerationStructure) (t : ℕ)
    (x y h1 h2 time : ℚ) (hx : s.BeatTickToTimes[t]? = some x)
    (hy : s.BeatTickToTimes[t + 1]? = some y)
    (hh1 : s.BeatTickToHBScrollBeatTicks[t]? = some h1)
    (hh2 : s.BeatTickToHBScrollBeatTicks[t + 1]? = some h2) :
    ConvertBeatAndTimeToHBScrollBeatTickUsingLookupTableIndexing env s (t : ℤ) time =
      some (ConvertRange x y h1 h2 time) := by
  obtain ⟨hN, -⟩ := List.getElem?_eq_some.mp hy
  have c1 : ¬ ((t : ℤ) < 0) := by omega
  have c2 : ¬ ((t : ℤ) + 1 ≥ (s.BeatTickToTimes.length : ℤ)) := by omega
  have e1 : toSizeT ((t : ℤ) + 1) = t + 1 := by
    have : ((t : ℤ) + 1) = ((t + 1 : ℕ) : ℤ) := by push_cast; ring
    rw [this, toSizeT_natCast]
  simp only [ConvertBeatAndTimeToHBScrollBeatTickUsingLookupTableIndexing, c1, c2, if_false,
    toSizeT_natCast, e1, hx, hy, hh1, hh2]

/-- C16. The HBScroll query interpolates through the tabulated samples: for the index built from
tempo changes strictly ascending by non-negative tick with valid tempos, at every tabulated
tick `t` the query at `Beat(t)` and the time tabulated for `t` gives the HBScroll tick tabulated
for `t`, and, when `t + 1` is tabulated too, the query at `Beat(t)` and the time tabulated for
`t + 1` gives the HBScroll tick tabulated for `t + 1`. -/
theorem hbscroll_through_samples (env : Env) (s0 : TempoMapAccelerationStructure)
    (l : List TempoChange) (hT : 0 < env.TicksPerBeat) (hfb : ValidTempo env env.FallbackTempo)
    (hsorted : l.Pairwise (fun a b => a.Beat < b.Beat)) (hnonneg : ∀ tc ∈ l, 0 ≤ tc.Beat)
    (hvalid : ∀ tc ∈ l, ValidTempo env tc.Tempo) :
    ∃ s, Rebuild env s0 l = some s ∧
      (∀ t : ℕ, t < s.BeatTickToTimes.length →
        ∃ x h, s.BeatTickToTimes[t]? = some x ∧ s.BeatTickToHBScrollBeatTicks[t]? = some h ∧
          ConvertBeatAndTimeToHBScrollBeatTickUsingLookupTableIndexing env s (t : ℤ) x
            = some h) ∧
      (∀ t : ℕ, t + 1 < s.BeatTickToTimes.length →
        ∃ y h, s.BeatTickToTimes[t + 1]? = some y ∧
          s.BeatTickToHBScrollBeatTicks[t + 1]? = some h ∧
          ConvertBeatAndTimeToHBScrollBeatTickUsingLookupTableIndexing env s (t : ℤ) y
            = some h) := by
  obtain ⟨s, hrun, hN, hlen, h0, hmono, -, -⟩ :=
    Rebuild_valid env s0 l hT hfb hsorted hnonneg hvalid
  have hget : ∀ t : ℕ, t < s.BeatTickToTimes.length →
      ∃ x h, s.BeatTickToTimes[t]? = some x ∧ s.BeatTickToHBScrollBeatTicks[t]? = some h :=
    fun t ht => ⟨_, _, List.getElem?_eq_getElem ht, List.getElem?_eq_getElem (by omega)⟩
  refine ⟨s, hrun, fun t ht => ?_, fun t ht => ?_⟩
  · obtain ⟨x, h, hx, hh⟩ := hget t ht
    refine ⟨x, h, hx, hh, ?_⟩
    by_cases hnext : t + 1 < s.BeatTickToTimes.length
    · obtain ⟨y, h2, hy, hh2⟩ := hget (t + 1) hnext
      rw [convertHBScroll_inside env s t x y h h2 x hx hy hh hh2]
      simp [ConvertRange]
    · have ht1 : t = s.BeatTickToTimes.length - 1 := by omega
      have hlastT := GetLastCalculatedTime_eq s x (by rw [← ht1]; exact hx)
      have hlastH := GetLastCalculatedHBScrollBeatTick_eq s h (by rw [hlen, ← ht1]; exact hh)
      have c1 : ¬ ((t : ℤ) < 0) := by omega
      have c2 : (t : ℤ) + 1 ≥ (s.BeatTickToTimes.length : ℤ) := by omega
      simp only [ConvertBeatAndTimeToHBScrollBeatTickUsingLookupTableIndexing, c1, if_false, c2,
        if_true, hlastT, hlastH, sub_self, zero_div, add_zero]
  · obtain ⟨x, h1, hx, hh1⟩ := hget t (by omega)
    obtain ⟨y, h2, hy, hh2⟩ := hget (t + 1) ht
    refine ⟨y, h2, hy, hh2, ?_⟩
    rw [convertHBScroll_inside env s t x y h1 h2 y hx hy hh1 hh2]
    have hxy : x < y := lt_of_sorted_getElem? _ hmono hx hy (Nat.lt_succ_self t)
    have hne : y - x ≠ 0 := sub_ne_zero.mpr (ne_of_gt hxy)
    simp only [ConvertRange]
    rw [mul_div_assoc, mul_div_cancel₀ _ hne]
    congr 1
    ring

theorem hbscroll_through_samples_witness :
    ∃ s, Rebuild exampleEnv emptyIndex twoSegments = some s ∧
      (∀ t : ℕ, t < s.BeatTickToTimes.length →
        ∃ x h, s.BeatTickToTimes[t]? = some x ∧ s.BeatTickToHBScrollBeatTicks[t]? = some h ∧
          ConvertBeatAndTimeToHBScrollBeatTickUsingLookupTableIndexing exampleEnv s (t : ℤ) x
            = some h) ∧
      (∀ t : ℕ, t + 1 < s.BeatTickToTimes.length →
        ∃ y h, s.BeatTickToTimes[t + 1]? = some y ∧
          s.BeatTickToHBScrollBeatTicks[t + 1]? = some h ∧
          ConvertBeatAndTimeToHBScrollBeatTickUsingLookupTableIndexing exampleEnv s (t : ℤ) y
            = some h) :=
  hbscroll_through_samples exampleEnv emptyIndex twoSegments exampleEnv_ticks
    (exampleEnv_valid _ (by norm_num [exampleEnv])) twoSegments_sorted twoSegments_nonneg
    twoSegments_valid

/-! ## Queries stay inside the tables -/

theorem fillTicks_length (d sg le : ℚ) (lh : ℤ) :
    ∀ (n i t : ℕ) (times hbs times1 hbs1 : List ℚ),
      fillTicks d sg le lh n i t times hbs = some (times1, hbs1) →
      times1.length = times.length ∧ hbs1.length = hbs.length := by
  intro n
  induction n with
  | zero =>
    intro i t times hbs times1 hbs1 h
    simp only [fillTicks, Option.some.injEq, Prod.mk.injEq] at h
    exact ⟨by rw [h.1], by rw [h.2]⟩
  | succ n ih =>
    intro i t times hbs times1 hbs1 h
    simp only [fillTicks] at h
    split at h
    · obtain ⟨a, b⟩ := ih _ _ _ _ _ _ h
      exact ⟨by simpa using a, by simpa using b⟩
    · cases h

theorem rebuildLoop_length (env : Env) (tempoCount : ℕ) :
    ∀ (rem : List TempoChange) (idx : ℕ) (le : ℚ) (lh : ℤ)
      (s s1 : TempoMapAccelerationStructure),
      rebuildLoop env tempoCount rem idx le lh s = some s1 →
      s1.BeatTickToTimes.length = s.BeatTickToTimes.length ∧
        s1.BeatTickToHBScrollBeatTicks.length = s.BeatTickToHBScrollBeatTicks.length := by
  intro rem
  induction rem with
  | nil =>
    intro idx le lh s s1 h
    simp only [rebuildLoop, Option.some.injEq] at h
    subst h
    exact ⟨rfl, rfl⟩
  | cons tc rest ih =>
    intro idx le lh s s1 h
    rw [rebuildLoop] at h
    simp only at h
    split at h
    · cases h
    · split at h
      · cases h
      · rename_i times hbs hfill
        obtain ⟨l1, l2⟩ := fillTicks_length _ _ _ _ _ _ _ _ _ _ _ hfill
        split at h
        · split at h
          · obtain ⟨a, b⟩ := ih _ _ _ _ _ h
            exact ⟨a.trans l1, b.trans l2⟩
          · cases h
        · obtain ⟨a, b⟩ := ih _ _ _ _ _ h
          exact ⟨a.trans l1, b.trans l2⟩

/-- Whatever the tempo list, a build that runs to its end leaves two tables of the same
length. -/
theorem Rebuild_length (env : Env) (s0 s : TempoMapAccelerationStructure)
    (l : List TempoChange) (h : Rebuild env s0 l = some s) :
    s.BeatTickToHBScrollBeatTicks.length = s.BeatTickToTimes.length := by
  simp only [Rebuild, Option.map_eq_some'] at h
  obtain ⟨s1, hrun, hs⟩ := h
  obtain ⟨a, b⟩ := rebuildLoop_length env _ _ _ _ _ _ _ hrun
  simp only [resize_length] at a b
  rw [← hs]
  simp only
  rw [a, b]

/-- The binary search reads inside the table: for a table whose first entry is zero and a time
from zero on and before the last entry, `left` and `right` stay among the ticks of the table, so
every `mid` and the two indices read after the loop are in range, sorted table or not. -/
theorem binarySearch_in_range (times : List ℚ) (time lastT : ℚ) (truncTo0 : Bool)
    (h0 : times[0]? = some 0) (hlast : times[times.length - 1]? = some lastT)
    (ht0 : 0 ≤ time) (htl : time < lastT) :
    ∀ (n : ℕ) (left right : ℤ), (right - left + 1).toNat = n → 0 ≤ left →
      left < (times.length : ℤ) → 0 ≤ right → right < (times.length : ℤ) → left ≤ right + 1 →
      ∃ r, binarySearch times time truncTo0 left right = some r := by
  intro n
  induction n using Nat.strong_induction_on with
  | _ n ih =>
    intro left right hn hl hlN hr hrN hlr1
    by_cases hlr : left ≤ right
    · have hmid : Int.tdiv (left + right) 2 = (left + right) / 2 := tdiv_two_eq _ (by omega)
      have hm0 : 0 ≤ (left + right) / 2 := by omega
      have hsz : toSizeT ((left + right) / 2) = ((left + right) / 2).toNat :=
        toSizeT_of_nonneg hm0
      obtain ⟨tm, htm⟩ : ∃ tm, times[((left + right) / 2).toNat]? = some tm :=
        ⟨_, List.getElem?_eq_getElem (by omega)⟩
      rw [binarySearch]
      simp only [hlr, if_true, hmid, hsz, htm]
      by_cases h1 : time < tm
      · simp only [h1, if_true]
        have hne : ((left + right) / 2).toNat ≠ 0 := by
          intro hz
          rw [hz, h0] at htm
          have := Option.some.inj htm
          linarith
        exact ih _ (by omega) left ((left + right) / 2 - 1) rfl hl hlN (by omega) (by omega)
          (by omega)
      · by_cases h2 : time > tm
        · simp only [h1, if_false, h2, if_true]
          have hne : ((left + right) / 2).toNat ≠ times.length - 1 := by
            intro hz
            rw [hz, hlast] at htm
            have := Option.some.inj htm
            linarith
          exact ih _ (by omega) ((left + right) / 2 + 1) right rfl (by omega) (by omega) hr hrN
            (by omega)
        · simp only [h1, if_false, h2]
          exact ⟨_, rfl⟩
    · obtain ⟨tl, htlft⟩ : ∃ x, times[left.toNat]? = some x :=
        ⟨_, List.getElem?_eq_getElem (by omega)⟩
      obtain ⟨tr, htrgt⟩ : ∃ x, times[right.toNat]? = some x :=
        ⟨_, List.getElem?_eq_getElem (by omega)⟩
      rw [binarySearch]
      simp only [hlr, if_false, toSizeT_of_nonneg hl, toSizeT_of_nonneg hr, htlft, htrgt]
      cases truncTo0
      · exact ⟨_, rfl⟩
      · exact ⟨_, rfl⟩

/-- The three queries return a result for every input on a state with tables of the same
length whose time table is empty or starts with zero. -/
theorem queries_total (env : Env) (s : TempoMapAccelerationStructure)
    (hlen : s.BeatTickToHBScrollBeatTicks.length = s.BeatTickToTimes.length)
    (h0 : s.BeatTickToTimes = [] ∨ s.BeatTickToTimes[0]? = some 0)
    (beat : ℤ) (time : ℚ) (truncTo0 : Bool) :
    (∃ r, ConvertTimeToBeatUsingLookupTableBinarySearch env s time truncTo0 = some r) ∧
    (∃ r, ConvertBeatToTimeUsingLookupTableIndexing env s beat = some r) ∧
    (∃ r, ConvertBeatAndTimeToHBScrollBeatTickUsingLookupTableIndexing env s beat time
      = some r) := by
  refine ⟨?_, ?_, ?_⟩
  · unfold ConvertTimeToBeatUsingLookupTableBinarySearch
    by_cases h1 : time < 0
    · simp only [h1, if_true]
      exact ⟨_, rfl⟩
    · by_cases h2 : time ≥ GetLastCalculatedTime s
      · simp only [h1, if_false, h2, if_true]
        exact ⟨_, rfl⟩
      · simp only [h1, if_false, h2]
        rcases h0 with hnil | hz
        · exfalso
          apply h2
          simp only [GetLastCalculatedTime, hnil, List.getLast?_nil]
          exact not_lt.mp h1
        · obtain ⟨hN, -⟩ := List.getElem?_eq_some.mp hz
          obtain ⟨lastT, hlast⟩ :
              ∃ x, s.BeatTickToTimes[s.BeatTickToTimes.length - 1]? = some x :=
            ⟨_, List.getElem?_eq_getElem (by omega)⟩
          rw [GetLastCalculatedTime_eq s lastT hlast] at h2
          exact binarySearch_in_range _ time lastT truncTo0 hz hlast (not_lt.mp h1)
            (not_le.mp h2) _ 0 _ rfl (le_refl 0) (by omega) (by omega) (by omega) (by omega)
  · unfold ConvertBeatToTimeUsingLookupTableIndexing
    by_cases h1 : beat < 0
    · simp only [h1, if_true]
      exact ⟨_, rfl⟩
    · by_cases h2 : beat ≥ (s.BeatTickToTimes.length : ℤ)
      · simp only [h1, if_false, h2, if_true]
        exact ⟨_, rfl⟩
      · simp only [h1, if_false, h2, toSizeT_of_nonneg (not_lt.mp h1)]
        exact ⟨_, List.getElem?_eq_getElem (by omega)⟩
  · unfold ConvertBeatAndTimeToHBScrollBeatTickUsingLookupTableIndexing
    by_cases h1 : beat < 0
    · simp only [h1, if_true]
      exact ⟨_, rfl⟩
    · by_cases h2 : beat + 1 ≥ (s.BeatTickToTimes.length : ℤ)
      · simp only [h1, if_false, h2, if_true]
        exact ⟨_, rfl⟩
      · have hb0 : 0 ≤ beat := not_lt.mp h1
        simp only [h1, if_false, h2, toSizeT_of_nonneg hb0,
          toSizeT_of_nonneg (show 0 ≤ beat + 1 by omega)]
        rw [List.getElem?_eq_getElem (show beat.toNat < s.BeatTickToTimes.length by omega),
          List.getElem?_eq_getElem (show (beat + 1).toNat < s.BeatTickToTimes.length by omega),
          List.getElem?_eq_getElem
            (show beat.toNat < s.BeatTickToHBScrollBeatTicks.length by omega),
          List.getElem?_eq_getElem
            (show (beat + 1).toNat < s.BeatTickToHBScrollBeatTicks.length by omega)]
        exact ⟨_, rfl⟩

/-! ## Monotonicity of the inverse query -/

theorem convertTime_negative (env : Env) (s : TempoMapAccelerationStructure) (time : ℚ)
    (truncTo0 : Bool) (hneg : time < 0)
    (hd : 0 < 60 / |s.FirstTempoBPM| / (env.TicksPerBeat : ℚ)) :
    ConvertTimeToBeatUsingLookupTableBinarySearch env s time truncTo0 =
      some ⌈time / (60 / |s.FirstTempoBPM| / (env.TicksPerBeat : ℚ))⌉ := by
  have hq : time / (60 / |s.FirstTempoBPM| / (env.TicksPerBeat : ℚ)) < 0 :=
    div_neg_of_neg_of_pos hneg hd
  simp only [ConvertTimeToBeatUsingLookupTableBinarySearch, hneg, if_true, toI32,
    not_le.mpr hq, if_false]

/-- The inverse query for a time in the table, between the entry `x` at tick `k` (included) and
the entry `y` at tick `k + 1` (excluded). -/
theorem convertTime_bracket (env : Env) (s : TempoMapAccelerationStructure)
    (hsorted : s.BeatTickToTimes.Pairwise (fun a b => a < b))
    (h0 : s.BeatTickToTimes[0]? = some 0) (truncTo0 : Bool) (k : ℕ) (x y time : ℚ)
    (hx : s.BeatTickToTimes[k]? = some x) (hy : s.BeatTickToTimes[k + 1]? = some y)
    (hxt : x ≤ time) (hty : time < y) :
    ConvertTimeToBeatUsingLookupTableBinarySearch env s time truncTo0 =
      some (if truncTo0 then (k : ℤ) else if y - time < time - x then (k : ℤ) + 1 else k) := by
  rcases eq_or_lt_of_le hxt with heq | hlt
  · subst heq
    rw [convertTime_exact env s hsorted h0 truncTo0 k x hx]
    have hnot : ¬ (y - x < x - x) := by
      rw [sub_self]
      exact not_lt.mpr (by linarith)
    rw [if_neg hnot]
    cases truncTo0 <;> simp
  · exact convertTime_between env s hsorted h0 truncTo0 k x y time hx hy hlt hty

/-- The result of the inverse query on a time of the table range is the tick of its bracket or
the next one. -/
theorem bracket_result_bounds (truncTo0 : Bool) (k : ℕ) (x y time : ℚ) :
    (k : ℤ) ≤ (if truncTo0 then (k : ℤ) else if y - time < time - x then (k : ℤ) + 1 else k) ∧
    (if truncTo0 then (k : ℤ) else if y - time < time - x then (k : ℤ) + 1 else k)
      ≤ (k : ℤ) + 1 := by
  split_ifs <;> constructor <;> omega

/-- With ticks as unbounded integers the inverse query is monotone on a built index: for each
value of `truncTo0` and all times `a ≤ b` the tick for `a` is at most the tick for `b`. -/
theorem convertTime_monotone (env : Env) (s0 : TempoMapAccelerationStructure)
    (l : List TempoChange) (hT : 0 < env.TicksPerBeat) (hfb : ValidTempo env env.FallbackTempo)
    (hsorted : l.Pairwise (fun a b => a.Beat < b.Beat)) (hnonneg : ∀ tc ∈ l, 0 ≤ tc.Beat)
    (hvalid : ∀ tc ∈ l, ValidTempo env tc.Tempo) :
    ∃ s, Rebuild env s0 l = some s ∧
      ∀ (truncTo0 : Bool) (a b : ℚ), a ≤ b →
        ∃ ra rb, ConvertTimeToBeatUsingLookupTableBinarySearch env s a truncTo0 = some ra ∧
          ConvertTimeToBeatUsingLookupTableBinarySearch env s b truncTo0 = some rb ∧
          ra ≤ rb := by
  obtain ⟨s, hrun, hN, -, h0, hmono, hF, hL⟩ :=
    Rebuild_valid env s0 l hT hfb hsorted hnonneg hvalid
  have hTq : (0 : ℚ) < (env.TicksPerBeat : ℚ) := by exact_mod_cast hT
  have hd1 : 0 < 60 / |s.FirstTempoBPM| / (env.TicksPerBeat : ℚ) :=
    div_pos (div_pos (by norm_num) (abs_pos.mpr hF.1)) hTq
  have hdL : 0 < |60 / s.LastTempoBPM| / (env.TicksPerBeat : ℚ) :=
    div_pos (abs_pos.mpr (div_ne_zero (by norm_num) hL.1)) hTq
  obtain ⟨lastT, hlast⟩ : ∃ x, s.BeatTickToTimes[s.BeatTickToTimes.length - 1]? = some x :=
    ⟨_, List.getElem?_eq_getElem (by omega)⟩
  have hl0 : 0 ≤ lastT := le_of_sorted_getElem? _ hmono h0 hlast (Nat.zero_le _)
  -- the three ranges of the query
  have hnegR : ∀ (truncTo0 : Bool) (t : ℚ), t < 0 →
      ConvertTimeToBeatUsingLookupTableBinarySearch env s t truncTo0 =
        some ⌈t / (60 / |s.FirstTempoBPM| / (env.TicksPerBeat : ℚ))⌉ ∧
      ⌈t / (60 / |s.FirstTempoBPM| / (env.TicksPerBeat : ℚ))⌉ ≤ 0 := by
    intro truncTo0 t ht
    refine ⟨convertTime_negative env s t truncTo0 ht hd1, ?_⟩
    rw [Int.ceil_le]
    exact_mod_cast (div_neg_of_neg_of_pos ht hd1).le
  have hpastR : ∀ (truncTo0 : Bool) (t : ℚ), lastT ≤ t →
      ConvertTimeToBeatUsingLookupTableBinarySearch env s t truncTo0 =
        some ((s.BeatTickToTimes.length : ℤ) - 1 +
          ⌊(t - lastT) / (|60 / s.LastTempoBPM| / env.TicksPerBeat)⌋) ∧
      0 ≤ ⌊(t - lastT) / (|60 / s.LastTempoBPM| / env.TicksPerBeat)⌋ := by
    intro truncTo0 t ht
    refine ⟨convertTime_past_end env s hT lastT hlast hl0 t truncTo0 ht, ?_⟩
    exact Int.floor_nonneg.mpr (div_nonneg (by linarith) hdL.le)
  have hinR : ∀ (truncTo0 : Bool) (t : ℚ), 0 ≤ t → t < lastT →
      ∃ (k : ℕ) (x y : ℚ), s.BeatTickToTimes[k]? = some x ∧
        s.BeatTickToTimes[k + 1]? = some y ∧ x ≤ t ∧ t < y ∧
        ConvertTimeToBeatUsingLookupTableBinarySearch env s t truncTo0 =
          some (if truncTo0 then (k : ℤ) else if y - t < t - x then (k : ℤ) + 1 else k) := by
    intro truncTo0 t ht0 htl
    obtain ⟨k, x, y, -, hx, hy, hxt, hty⟩ :=
      bracket_exists s.BeatTickToTimes t 0 h0 ht0 _ lastT hlast htl
    exact ⟨k, x, y, hx, hy, hxt, hty,
      convertTime_bracket env s hmono h0 truncTo0 k x y t hx hy hxt hty⟩
  refine ⟨s, hrun, fun truncTo0 a b hab => ?_⟩
  by_cases ha : a < 0
  · obtain ⟨hra, hra0⟩ := hnegR truncTo0 a ha
    by_cases hb : b < 0
    · obtain ⟨hrb, -⟩ := hnegR truncTo0 b hb
      exact ⟨_, _, hra, hrb, Int.ceil_mono (div_le_div_of_nonneg_right hab hd1.le)⟩
    · by_cases hbl : lastT ≤ b
      · obtain ⟨hrb, hrb0⟩ := hpastR truncTo0 b hbl
        refine ⟨_, _, hra, hrb, ?_⟩
        omega
      · obtain ⟨k, x, y, -, -, -, -, hrb⟩ := hinR truncTo0 b (not_lt.mp hb) (not_le.mp hbl)
        have hbd := (bracket_result_bounds truncTo0 k x y b).1
        refine ⟨_, _, hra, hrb, ?_⟩
        omega
  · have ha0 : 0 ≤ a := not_lt.mp ha
    by_cases hal : lastT ≤ a
    · obtain ⟨hra, -⟩ := hpastR truncTo0 a hal
      obtain ⟨hrb, -⟩ := hpastR truncTo0 b (le_trans hal hab)
      refine ⟨_, _, hra, hrb, ?_⟩
      have := Int.floor_mono
        (div_le_div_of_nonneg_right (sub_le_sub_right hab lastT) hdL.le)
      omega
    · obtain ⟨ka, xa, ya, hxa, hya, hxat, htya, hra⟩ := hinR truncTo0 a ha0 (not_le.mp hal)
      have hbda := bracket_result_bounds truncTo0 ka xa ya a
      obtain ⟨hkaN, -⟩ := List.getElem?_eq_some.mp hya
      by_cases hbl : lastT ≤ b
      · obtain ⟨hrb, hrb0⟩ := hpastR truncTo0 b hbl
        refine ⟨_, _, hra, hrb, ?_⟩
        omega
      · obtain ⟨kb, xb, yb, hxb, hyb, hxbt, htyb, hrb⟩ :=
          hinR truncTo0 b (le_trans ha0 hab) (not_le.mp hbl)
        have hbdb := bracket_result_bounds truncTo0 kb xb yb b
        have hkab : ka ≤ kb := by
          by_contra hcon
          have := le_of_sorted_getElem? _ hmono hyb hxa (by omega)
          linarith
        refine ⟨_, _, hra, hrb, ?_⟩
        rcases Nat.eq_or_lt_of_le hkab with heq | hlt
        · subst heq
          rw [hxa] at hxb
          rw [hya] at hyb
          have e1 := Option.some.inj hxb
          have e2 := Option.some.inj hyb
          subst e1 e2
          split_ifs <;> first | omega | (exfalso; linarith)
        · omega

/-! ## The queries with explicit 32-bit arithmetic -/

theorem staticCastI32_eq (x : ℚ) :
    staticCastI32 x = if InI32Range (toI32 x) then some (toI32 x) else none := rfl

/-- Outside the table range the checked inverse query returns the tick of the unchecked one
when that tick is a value of `i32`, and nothing otherwise. -/
theorem convertTimeI32_outside (env : Env) (s : TempoMapAccelerationStructure) (time : ℚ)
    (truncTo0 : Bool) (hout : time < 0 ∨ time ≥ GetLastCalculatedTime s) (r : ℤ)
    (hu : ConvertTimeToBeatUsingLookupTableBinarySearch env s time truncTo0 = some r) :
    ConvertTimeToBeatUsingLookupTableBinarySearchI32 env s time truncTo0 =
      if InI32Range r then some r else none := by
  unfold ConvertTimeToBeatUsingLookupTableBinarySearch at hu
  unfold ConvertTimeToBeatUsingLookupTableBinarySearchI32
  by_cases h1 : time < 0
  · simp only [h1, if_true, Option.some.injEq] at hu ⊢
    rw [staticCastI32_eq, hu]
  · have h2 : time ≥ GetLastCalculatedTime s := by
      rcases hout with h | h
      · exact absurd h h1
      · exact h
    simp only [h1, if_false, h2, if_true, Option.some.injEq] at hu ⊢
    rw [staticCastI32_eq, hu]

/-- Inside the table range the checked inverse query is the binary search, as the unchecked
one. -/
theorem convertTimeI32_inside (env : Env) (s : TempoMapAccelerationStructure) (time : ℚ)
    (truncTo0 : Bool) (h1 : ¬ time < 0) (h2 : ¬ time ≥ GetLastCalculatedTime s) :
    ConvertTimeToBeatUsingLookupTableBinarySearchI32 env s time truncTo0 =
      ConvertTimeToBeatUsingLookupTableBinarySearch env s time truncTo0 := by
  unfold ConvertTimeToBeatUsingLookupTableBinarySearch
  unfold ConvertTimeToBeatUsingLookupTableBinarySearchI32
  simp only [h1, if_false, h2]

theorem convertTimeI32_of_inRange (env : Env) (s : TempoMapAccelerationStructure) (time : ℚ)
    (truncTo0 : Bool) (r : ℤ)
    (hu : ConvertTimeToBeatUsingLookupTableBinarySearch env s time truncTo0 = some r)
    (hr : InI32Range r) :
    ConvertTimeToBeatUsingLookupTableBinarySearchI32 env s time truncTo0 = some r := by
  by_cases hout : time < 0 ∨ time ≥ GetLastCalculatedTime s
  · rw [convertTimeI32_outside env s time truncTo0 hout r hu, if_pos hr]
  · rw [convertTimeI32_inside env s time truncTo0 (fun h => hout (Or.inl h))
      (fun h => hout (Or.inr h))]
    exact hu

theorem convertTimeI32_eq_some (env : Env) (s : TempoMapAccelerationStructure) (time : ℚ)
    (truncTo0 : Bool) (r : ℤ)
    (h : ConvertTimeToBeatUsingLookupTableBinarySearchI32 env s time truncTo0 = some r) :
    ConvertTimeToBeatUsingLookupTableBinarySearch env s time truncTo0 = some r := by
  by_cases hout : time < 0 ∨ time ≥ GetLastCalculatedTime s
  · unfold ConvertTimeToBeatUsingLookupTableBinarySearch
    unfold ConvertTimeToBeatUsingLookupTableBinarySearchI32 at h
    by_cases h1 : time < 0
    · simp only [h1, if_true] at h ⊢
      rw [staticCastI32_eq] at h
      split at h
      · exact h
      · cases h
    · have h2 : time ≥ GetLastCalculatedTime s := by
        rcases hout with h3 | h3
        · exact absurd h3 h1
        · exact h3
      simp only [h1, if_false, h2, if_true] at h ⊢
      rw [staticCastI32_eq] at h
      split at h
      · exact h
      · cases h
  · rw [← convertTimeI32_inside env s time truncTo0 (fun h => hout (Or.inl h))
      (fun h => hout (Or.inr h))]
    exact h

/-- C4, amended. Negative-time inverse query: for the index built from tempo changes strictly
ascending by non-negative tick with valid tempos, the duration `d = |60 / FirstTempoBPM| /
TicksPerBeat` is positive, and for every time below zero whose quotient `time / d`, rounded
toward zero (for a negative quotient, its ceiling), is a value of `i32`, the query returns that
rounded quotient, with either value of `truncTo0`, and the result is not positive. -/
theorem negative_time_truncates (env : Env) (s0 : TempoMapAccelerationStructure)
    (l : List TempoChange) (hT : 0 < env.TicksPerBeat) (hfb : ValidTempo env env.FallbackTempo)
    (hsorted : l.Pairwise (fun a b => a.Beat < b.Beat)) (hnonneg : ∀ tc ∈ l, 0 ≤ tc.Beat)
    (hvalid : ∀ tc ∈ l, ValidTempo env tc.Tempo) :
    ∃ s, Rebuild env s0 l = some s ∧
      0 < |60 / s.FirstTempoBPM| / env.TicksPerBeat ∧
      ∀ (time : ℚ) (truncTo0 : Bool), time < 0 →
        InI32Range ⌈time / (|60 / s.FirstTempoBPM| / env.TicksPerBeat)⌉ →
        ConvertTimeToBeatUsingLookupTableBinarySearchI32 env s time truncTo0 =
          some ⌈time / (|60 / s.FirstTempoBPM| / env.TicksPerBeat)⌉ ∧
        ⌈time / (|60 / s.FirstTempoBPM| / env.TicksPerBeat)⌉ ≤ 0 := by
  obtain ⟨s, hrun, -, -, -, -, hF, -⟩ := Rebuild_valid env s0 l hT hfb hsorted hnonneg hvalid
  have hTq : (0 : ℚ) < (env.TicksPerBeat : ℚ) := by exact_mod_cast hT
  have hd : 0 < |60 / s.FirstTempoBPM| / env.TicksPerBeat :=
    div_pos (abs_pos.mpr (div_ne_zero (by norm_num) hF.1)) hTq
  refine ⟨s, hrun, hd, fun time truncTo0 hneg hr => ⟨?_, ?_⟩⟩
  · have hu := convertTime_negative env s time truncTo0 hneg (by rw [← abs_sixty_div]; exact hd)
    rw [← abs_sixty_div] at hu
    exact convertTimeI32_of_inRange env s time truncTo0 _ hu hr
  · rw [Int.ceil_le]
    exact_mod_cast (div_neg_of_neg_of_pos hneg hd).le

/-- The example of C4 at the time `-1 / 1000`: the quotient `-0.384` is rounded to tick 0. -/
theorem negative_time_truncates_witness :
    Rebuild exampleEnv emptyIndex [⟨0, 120⟩] = some singleTempoIndex ∧
      InI32Range ⌈(-1 / 1000 : ℚ) /
        (|60 / singleTempoIndex.FirstTempoBPM| / exampleEnv.TicksPerBeat)⌉ ∧
      ConvertTimeToBeatUsingLookupTableBinarySearchI32 exampleEnv singleTempoIndex (-1 / 1000)
        false = some ⌈(-1 / 1000 : ℚ) /
          (|60 / singleTempoIndex.FirstTempoBPM| / exampleEnv.TicksPerBeat)⌉ ∧
      ⌈(-1 / 1000 : ℚ) / (|60 / singleTempoIndex.FirstTempoBPM| / exampleEnv.TicksPerBeat)⌉
        = 0 := by
  obtain ⟨s, hrun, -, hq⟩ :=
    negative_time_truncates exampleEnv emptyIndex [⟨0, 120⟩] exampleEnv_ticks
      (exampleEnv_valid _ (by norm_num [exampleEnv])) (by simp) (by simp)
      (fun tc htc => exampleEnv_valid _ (by
        simp only [List.mem_singleton] at htc
        rw [htc]; norm_num))
  rw [Rebuild_singleTempo] at hrun
  have hs : s = singleTempoIndex := (Option.some.inj hrun).symm
  subst hs
  have hval : (-1 / 1000 : ℚ) /
      (|60 / singleTempoIndex.FirstTempoBPM| / exampleEnv.TicksPerBeat) = -48 / 125 := by
    norm_num [singleTempoIndex, exampleEnv, abs_of_pos]
  have hc : ⌈(-48 / 125 : ℚ)⌉ = 0 := by
    rw [Int.ceil_eq_iff]; norm_num
  have hr : InI32Range ⌈(-1 / 1000 : ℚ) /
      (|60 / singleTempoIndex.FirstTempoBPM| / exampleEnv.TicksPerBeat)⌉ := by
    rw [hval, hc]
    decide
  exact ⟨Rebuild_singleTempo, hr, (hq (-1 / 1000) false (by norm_num) hr).1, by rw [hval, hc]⟩

theorem singleTempoIndex_last :
    singleTempoIndex.BeatTickToTimes[singleTempoIndex.BeatTickToTimes.length - 1]? = some 0 := by
  simp [singleTempoIndex]

/-- On the index of the single tempo change 120 BPM at tick 0, with 192 ticks per beat, a time
of `time ≥ 0` seconds lies `384 * time` ticks after tick 0. -/
theorem convertTime_singleTempoIndex (time : ℚ) (truncTo0 : Bool) (h : 0 ≤ time) :
    ConvertTimeToBeatUsingLookupTableBinarySearch exampleEnv singleTempoIndex time truncTo0 =
      some ⌊384 * time⌋ := by
  rw [convertTime_past_end exampleEnv singleTempoIndex exampleEnv_ticks 0 singleTempoIndex_last
    le_rfl time truncTo0 h]
  have hval : (time - 0) / (|60 / singleTempoIndex.LastTempoBPM| / exampleEnv.TicksPerBeat)
      = 384 * time := by
    norm_num [singleTempoIndex, exampleEnv, abs_of_pos]
    ring
  rw [hval]
  simp [singleTempoIndex]

/-- C18, as stated, fails: on the index built from the single tempo change 120 BPM at tick 0
with 192 ticks per beat the time 0 is converted to tick 0, while the time 10000000000 lies
3840000000000 ticks after tick 0, which is not a value of `i32`: the `static_cast<i32>` of the
past-the-end branch is undefined there, so the query has no tick for it that could be compared
with tick 0. -/
theorem inverse_query_monotone_counterexample :
    Rebuild exampleEnv emptyIndex [⟨0, 120⟩] = some singleTempoIndex ∧
      ConvertTimeToBeatUsingLookupTableBinarySearchI32 exampleEnv singleTempoIndex 0 false
        = some 0 ∧
      ConvertTimeToBeatUsingLookupTableBinarySearch exampleEnv singleTempoIndex 10000000000
        false = some 3840000000000 ∧
      ¬ InI32Range 3840000000000 ∧
      ConvertTimeToBeatUsingLookupTableBinarySearchI32 exampleEnv singleTempoIndex 10000000000
        false = none := by
  have hlastT : GetLastCalculatedTime singleTempoIndex = 0 :=
    GetLastCalculatedTime_eq singleTempoIndex 0 singleTempoIndex_last
  have hu0 : ConvertTimeToBeatUsingLookupTableBinarySearch exampleEnv singleTempoIndex 0 false
      = some 0 := by
    rw [convertTime_singleTempoIndex 0 false le_rfl]
    simp
  have hu1 : ConvertTimeToBeatUsingLookupTableBinarySearch exampleEnv singleTempoIndex
      10000000000 false = some 3840000000000 := by
    rw [convertTime_singleTempoIndex 10000000000 false (by norm_num)]
    have : (384 : ℚ) * 10000000000 = ((3840000000000 : ℤ) : ℚ) := by norm_num
    rw [this, Int.floor_intCast]
  have hnot : ¬ InI32Range 3840000000000 := by decide
  refine ⟨Rebuild_singleTempo, ?_, hu1, hnot, ?_⟩
  · exact convertTimeI32_of_inRange exampleEnv singleTempoIndex 0 false 0 hu0 (by decide)
  · rw [convertTimeI32_outside exampleEnv singleTempoIndex 10000000000 false
      (Or.inr (by rw [hlastT]; norm_num)) 3840000000000 hu1, if_neg hnot]

/-- C18, amended. The inverse query is monotone within the 32-bit range: for the index built
from tempo changes strictly ascending by non-negative tick with valid tempos and each value of
`truncTo0`, every time has an exact tick, which the query returns whenever it is a value of
`i32`; and for all times `a ≤ b` (negative, inside the table range or past its end) for which
the query returns ticks, the tick for `a` is at most the tick for `b`. -/
theorem inverse_query_monotone_in_range (env : Env) (s0 : TempoMapAccelerationStructure)
    (l : List TempoChange) (hT : 0 < env.TicksPerBeat) (hfb : ValidTempo env env.FallbackTempo)
    (hsorted : l.Pairwise (fun a b => a.Beat < b.Beat)) (hnonneg : ∀ tc ∈ l, 0 ≤ tc.Beat)
    (hvalid : ∀ tc ∈ l, ValidTempo env tc.Tempo) :
    ∃ s, Rebuild env s0 l = some s ∧
      (∀ (truncTo0 : Bool) (time : ℚ),
        ∃ r, ConvertTimeToBeatUsingLookupTableBinarySearch env s time truncTo0 = some r ∧
          (InI32Range r →
            ConvertTimeToBeatUsingLookupTableBinarySearchI32 env s time truncTo0 = some r)) ∧
      ∀ (truncTo0 : Bool) (a b : ℚ), a ≤ b → ∀ ra rb : ℤ,
        ConvertTimeToBeatUsingLookupTableBinarySearchI32 env s a truncTo0 = some ra →
        ConvertTimeToBeatUsingLookupTableBinarySearchI32 env s b truncTo0 = some rb →
        ra ≤ rb := by
  obtain ⟨s, hrun, hmono⟩ := convertTime_monotone env s0 l hT hfb hsorted hnonneg hvalid
  refine ⟨s, hrun, fun truncTo0 time => ?_, fun truncTo0 a b hab ra rb hra hrb => ?_⟩
  · obtain ⟨r, -, hr, -⟩ := hmono truncTo0 time time le_rfl
    exact ⟨r, hr, fun hin => convertTimeI32_of_inRange env s time truncTo0 r hr hin⟩
  · obtain ⟨ra1, rb1, hra1, hrb1, hle⟩ := hmono truncTo0 a b hab
    have e1 := convertTimeI32_eq_some env s a truncTo0 ra hra
    have e2 := convertTimeI32_eq_some env s b truncTo0 rb hrb
    rw [hra1] at e1
    rw [hrb1] at e2
    rw [← Option.some.inj e1, ← Option.some.inj e2]
    exact hle

/-- An instance of C18 on the two-segment example. -/
theorem inverse_query_monotone_in_range_witness :
    ∃ s, Rebuild exampleEnv emptyIndex twoSegments = some s ∧
      (∀ (truncTo0 : Bool) (time : ℚ),
        ∃ r, ConvertTimeToBeatUsingLookupTableBinarySearch exampleEnv s time truncTo0
            = some r ∧
          (InI32Range r →
            ConvertTimeToBeatUsingLookupTableBinarySearchI32 exampleEnv s time truncTo0
              = some r)) ∧
      ∀ (truncTo0 : Bool) (a b : ℚ), a ≤ b → ∀ ra rb : ℤ,
        ConvertTimeToBeatUsingLookupTableBinarySearchI32 exampleEnv s a truncTo0 = some ra →
        ConvertTimeToBeatUsingLookupTableBinarySearchI32 exampleEnv s b truncTo0 = some rb →
        ra ≤ rb :=
  inverse_query_monotone_in_range exampleEnv emptyIndex twoSegments exampleEnv_ticks
    (exampleEnv_valid _ (by norm_num [exampleEnv])) twoSegments_sorted twoSegments_nonneg
    twoSegments_valid

theorem addI32_one_of_lt (beat : ℤ) (h1 : -2147483648 ≤ beat) (h2 : beat < 2147483647) :
    addI32 beat 1 = beat + 1 := by
  unfold addI32
  omega

/-- Below `INT_MAX` the sum `totalBeatTicks + 1` does not wrap and the two embeddings of the
HBScroll query agree. -/
theorem convertHBScrollI32_eq (env : Env) (s : TempoMapAccelerationStructure) (beat : ℤ)
    (time : ℚ) (h1 : -2147483648 ≤ beat) (h2 : beat < 2147483647) :
    ConvertBeatAndTimeToHBScrollBeatTickUsingLookupTableIndexingI32 env s beat time =
      ConvertBeatAndTimeToHBScrollBeatTickUsingLookupTableIndexing env s beat time := by
  unfold ConvertBeatAndTimeToHBScrollBeatTickUsingLookupTableIndexingI32
  unfold ConvertBeatAndTimeToHBScrollBeatTickUsingLookupTableIndexing
  simp only [addI32_one_of_lt beat h1 h2]

/-- C14 fails in the code at `Beat(INT_MAX)`: on the index built from the single tempo change
120 BPM at tick 0 (one tabulated tick), the `i32` sum `totalBeatTicks + 1` of
`ConvertBeatAndTimeToHBScrollBeatTickUsingLookupTableIndexing` wraps from `INT_MAX` to
`INT_MIN`, the test against the table length fails, and the query reads the tables at index
`INT_MAX`, outside the table: it has no result. The sibling query
`ConvertBeatToTimeUsingLookupTableIndexing`, which compares `totalBeatTicks` itself, returns a
result for the same beat. -/
theorem hbscroll_query_out_of_range_at_int_max :
    Rebuild exampleEnv emptyIndex [⟨0, 120⟩] = some singleTempoIndex ∧
      InI32Range 2147483647 ∧
      addI32 2147483647 1 = -2147483648 ∧
      singleTempoIndex.BeatTickToTimes.length = 1 ∧
      singleTempoIndex.BeatTickToTimes[toSizeT 2147483647]? = none ∧
      ConvertBeatAndTimeToHBScrollBeatTickUsingLookupTableIndexingI32 exampleEnv
        singleTempoIndex 2147483647 0 = none ∧
      ∃ r, ConvertBeatToTimeUsingLookupTableIndexing exampleEnv singleTempoIndex 2147483647
        = some r := by
  have hadd : addI32 2147483647 1 = -2147483648 := by decide
  have hsz : toSizeT 2147483647 = 2147483647 := by
    rw [toSizeT_of_nonneg (by norm_num)]
    rfl
  have hread : singleTempoIndex.BeatTickToTimes[toSizeT 2147483647]? = none := by
    rw [hsz]
    exact List.getElem?_eq_none (by simp [singleTempoIndex])
  refine ⟨Rebuild_singleTempo, by decide, hadd, rfl, hread, ?_, ?_⟩
  · unfold ConvertBeatAndTimeToHBScrollBeatTickUsingLookupTableIndexingI32
    have c1 : ¬ ((2147483647 : ℤ) < 0) := by norm_num
    have c2 : ¬ ((-2147483648 : ℤ) ≥ ((singleTempoIndex.BeatTickToTimes.length : ℕ) : ℤ)) := by
      simp [singleTempoIndex]
    simp only [c1, if_false, hadd, c2, hread]
  · exact (queries_total exampleEnv singleTempoIndex rfl (Or.inr rfl) 2147483647 0 false).2.1

end PeepoDrumKit
